import Mathlib

/-!
Verification development for the apple-vision-migaku-ocr repository.

The repository is a small macOS OCR pipeline: a window locator, a screen
capturer, an image cropper, an OCR adapter over two OS backends, a text
cleaner, a clipboard sink, and a resident hotkey daemon.  The definitions
below are shallow embeddings of the pure logic of the Python sources
(`ocr_core.py`, `ocr_daemon.py`, `window_ocrmac.py`); OS services (window
enumeration, screen capture, the OCR engines, the clipboard) are treated as
oracles supplied as explicit parameters.
-/

set_option maxHeartbeats 1000000

/-! ## Basic character and string helpers (Python semantics) -/

/-- The whitespace class of Python's `str.strip` and `\s` for the ASCII range. -/
def isPySpace (c : Char) : Bool :=
  c = ' ' || c = '\t' || c = '\n' || c = '\r' || c = '\x0b' || c = '\x0c'

/-- The word-character class of Python's `\b` boundary (`\w`), ASCII range. -/
def isWordChar (c : Char) : Bool :=
  c.isAlpha || c.isDigit || c = '_'

/-- Does `hay` start with `needle`? (`str.startswith`) -/
def listStarts : List Char → List Char → Bool
  | _, [] => true
  | [], _ :: _ => false
  | h :: hs, n :: ns => (h = n) && listStarts hs ns

/-- Substring containment, Python's `needle in hay`. -/
def listContains : List Char → List Char → Bool
  | [], needle => needle.isEmpty
  | h :: hs, needle => listStarts (h :: hs) needle || listContains hs needle

/-- Python `str.lower`, restricted to the ASCII case mapping. -/
def lowerL (s : List Char) : List Char := s.map Char.toLower

/-- Python `str.strip`: drop leading and trailing whitespace. -/
def stripL (s : List Char) : List Char :=
  ((s.dropWhile isPySpace).reverse.dropWhile isPySpace).reverse

/-- `str.strip` on `String`. -/
def pyStrip (s : String) : String := ⟨stripL s.data⟩

/-- `needle in hay` on `String`. -/
def containsS (hay needle : String) : Bool := listContains hay.data needle.data

/-- `str.lower` on `String`. -/
def lowerS (s : String) : String := ⟨lowerL s.data⟩

/-! ## Window locator (`ocr_daemon.py`, `pick_window_id`)

A window dictionary from the OS enumeration: `kCGWindowOwnerName` and
`kCGWindowName` may be absent (`w.get(...) or ""`), `kCGWindowNumber` may be
absent, and `kCGWindowLayer` defaults to 0 (`w.get("kCGWindowLayer", 0)`). -/

structure WinInfo where
  owner : Option String
  title : Option String
  wid : Option Int
  layer : Option Int
deriving DecidableEq

/-- `w.get(key) or ""`. -/
def orEmpty (o : Option String) : String := o.getD ""

/-- The daemon's title filter: `if title_substr_l and title_substr_l not in
title: continue` — it skips the window only when a nonempty title substring
was given that the lowered title does not contain. -/
def skipTitleB (titleSub : Option String) (w : WinInfo) : Bool :=
  match titleSub with
  | some t => !(t = "") && !containsS (lowerS (orEmpty w.title)) (lowerS t)
  | none => false

/-- `pick_window_id` from `ocr_daemon.py`: scan the enumeration in order;
skip windows whose lowered owner does not contain the lowered app substring;
if a nonempty title substring was given, skip windows whose lowered title
does not contain it; return the first surviving window's number when it is
present and the window's layer is 0, otherwise keep scanning; `none` when
the list is exhausted. -/
def pick_window_id (app : String) (titleSub : Option String) :
    List WinInfo → Option Int
  | [] => none
  | w :: rest =>
    if !containsS (lowerS (orEmpty w.owner)) (lowerS app) then
      pick_window_id app titleSub rest
    else if skipTitleB titleSub w then
      pick_window_id app titleSub rest
    else
      match w.wid, w.layer.getD 0 == 0 with
      | some i, true => some i
      | _, _ => pick_window_id app titleSub rest

/-- The claim's title condition: the title contains the title substring when
one was given. -/
def titleOkB (titleSub : Option String) (w : WinInfo) : Bool :=
  match titleSub with
  | some t => containsS (lowerS (orEmpty w.title)) (lowerS t)
  | none => true

/-- The claim's matching condition for a window: owner contains the app
substring (case-insensitively), title contains the title substring when one
was given, and the stacking layer equals 0. -/
def claimMatch (app : String) (titleSub : Option String) (w : WinInfo) : Bool :=
  containsS (lowerS (orEmpty w.owner)) (lowerS app)
    && titleOkB titleSub w
    && (w.layer.getD 0 == 0)

/-! ## OCR pipeline of `window_ocrmac.py` (`run_ocr_pipeline`, tail of `main`)

The two backends are oracles: an `Except` value is the outcome of calling the
backend (`error` = the call raised, `ok s` = it returned text `s`). -/

/-- `run_ocr_pipeline(img_path, framework_choice, level, langs)`: when the
framework is `auto` or `livetext`, attempt livetext with any exception
swallowed into `""`; when the text is still empty and the framework is `auto`
or `vision`, attempt vision (whose exception propagates). -/
def run_ocr_pipeline (fw : String) (livetextRes visionRes : Except Unit String) :
    Except Unit String :=
  let text : String :=
    if fw = "auto" || fw = "livetext" then
      match livetextRes with
      | .ok s => s
      | .error _ => ""
    else ""
  if text = "" && (fw = "auto" || fw = "vision") then visionRes
  else .ok text

/-- The tail of `window_ocrmac.main` after OCR: a pipeline exception
propagates; otherwise exit 7 on empty (stripped) text, else exit 0. -/
def window_main_finish (res : Except Unit String) : Except Unit Int :=
  match res with
  | .error e => .error e
  | .ok t => if pyStrip t = "" then .ok 7 else .ok 0

/-! ## Vision language hints (`ocr_core.py` and `window_ocrmac.py`) -/

/-- `VISION_SUPPORTED_LANGS` from `ocr_core.py`. -/
def VISION_SUPPORTED_LANGS : List String :=
  ["en-US", "fr-FR", "it-IT", "de-DE", "es-ES", "pt-BR"]

/-- A call to one of the OCR backends, as constructed by the adapters:
either livetext (image only) or vision with a recognition level and an
optional `language_preference` argument (`none` = omitted). -/
inductive OCRCall where
  | livetext
  | vision (level : String) (langPref : Option (List String))
deriving DecidableEq

/-- Configuration dataclass `OCRConfig` from `ocr_core.py`. -/
structure OCRConfig where
  framework : String := "livetext"
  level : String := "fast"
  languages : List String := ["ja-JP"]
  crop_norm : Option (ℚ × ℚ × ℚ × ℚ) := none
  cleanup_hud : Bool := true

/-- The backend call made by `ocr_core.ocr_image_to_text`: livetext when
configured; otherwise vision, passing `language_preference` as the configured
list filtered to `VISION_SUPPORTED_LANGS`, and omitting it when the filtered
list is empty. -/
def coreOcrCall (cfg : OCRConfig) : OCRCall :=
  if cfg.framework = "livetext" then .livetext
  else
    let supported := cfg.languages.filter (fun l => VISION_SUPPORTED_LANGS.contains l)
    if supported.isEmpty then .vision cfg.level none
    else .vision cfg.level (some supported)

/-- The backend call made by `window_ocrmac.ocr_image_to_text`: livetext when
asked; otherwise vision with `language_preference` set to the given language
list, unfiltered. -/
def windowOcrCall (framework level : String) (langs : List String) : OCRCall :=
  if framework = "livetext" then .livetext
  else .vision level (some langs)

/-! ## Hotkey daemon, one run (`ocr_daemon.py`, `run_once` and `main`)

`run_once` is embedded over an environment of oracle outcomes, one per
pipeline stage.  An `Except.error` is the stage raising an exception
(`screencapture` raising `CalledProcessError`, `ocr_file_to_text` raising,
`pbcopy` with `check=True` raising, `subprocess.Popen` raising). -/

deriving instance DecidableEq for Except

structure DaemonEnv where
  /-- Result of `pick_window_id` (`none` = no window matched). -/
  window : Option Int
  /-- `screencapture_window`: `error` = `CalledProcessError`. -/
  capture : Except Unit Unit
  /-- `ocr_file_to_text`: `error` = the OCR backend raised. -/
  ocr : Except Unit String
  /-- `copy_to_clipboard` (`pbcopy` with `check=True`): `error` = it raised. -/
  clipboard : Except Unit Unit
  /-- `--after` command: `none` = not configured; `some (error _)` =
  `subprocess.Popen` raised on launch. -/
  afterCmd : Option (Except Unit Unit)
deriving DecidableEq

/-- How one `run_once` call ends: a normal return (the daemon loop goes back
to blocking on the queue) or an exception escaping `run_once` (which the
`while True` loop in `main` does not catch, so the daemon terminates). -/
inductive RunOutcome where
  | handled
  | propagated
deriving DecidableEq

/-- `run_once` from `ocr_daemon.py`.  No window and a capture
`CalledProcessError` are caught (logged, early return); an exception from
OCR, from the clipboard write, or from launching the after-command is not
caught anywhere in `run_once`. -/
def run_once (env : DaemonEnv) : RunOutcome :=
  match env.window with
  | none => .handled
  | some _ =>
    match env.capture with
    | .error _ => .handled
    | .ok _ =>
      match env.ocr with
      | .error _ => .propagated
      | .ok text =>
        if pyStrip text = "" then .handled
        else
          match env.clipboard with
          | .error _ => .propagated
          | .ok _ =>
            match env.afterCmd with
            | some (.error _) => .propagated
            | _ => .handled

/-- The daemon's main loop catches only `KeyboardInterrupt`: after processing
one trigger it is back at Idle exactly when `run_once` returned normally. -/
def daemonIdleAfter (env : DaemonEnv) : Bool := run_once env == .handled

/-- Some stage of the run failed (the claim's list of failure modes). -/
def runFails (env : DaemonEnv) : Bool :=
  env.window == none
    || env.capture == .error ()
    || env.ocr == .error ()
    || env.clipboard == .error ()
    || env.afterCmd == some (.error ())

/-! ## Crop-rectangle parsing (`ocr_core.py`, `parse_crop`)

Numeric values are modelled as rationals; `float(p)` is modelled on the
plain decimal forms (optional sign, digits, optional fraction part), the
fragment of Python float syntax exercised by crop strings. -/

/-- `str.split(",")`. -/
def splitComma : List Char → List (List Char)
  | [] => [[]]
  | c :: rest =>
    if c = ',' then [] :: splitComma rest
    else
      match splitComma rest with
      | [] => [[c]]
      | p :: ps => (c :: p) :: ps

/-- Digits of a decimal string as a natural number. -/
def digitsVal (s : List Char) : Nat :=
  s.foldl (fun acc c => 10 * acc + (c.toNat - '0'.toNat)) 0

/-- Unsigned decimal literal: `digits`, `digits.digits`, `digits.` or
`.digits`, with at least one digit overall. -/
def parseUDec (s : List Char) : Option ℚ :=
  let ip := s.takeWhile Char.isDigit
  match s.dropWhile Char.isDigit with
  | [] => if ip.isEmpty then none else some (digitsVal ip)
  | '.' :: rest =>
    let fp := rest.takeWhile Char.isDigit
    if !(rest.dropWhile Char.isDigit).isEmpty then none
    else if ip.isEmpty && fp.isEmpty then none
    else some ((digitsVal ip : ℚ) + (digitsVal fp : ℚ) / (10 ^ fp.length : ℚ))
  | _ => none

/-- `float(p)` on a stripped string, decimal fragment, with optional sign. -/
def parseFloatQ : List Char → Option ℚ
  | '-' :: t => (parseUDec t).map Neg.neg
  | '+' :: t => parseUDec t
  | t => parseUDec t

/-- `parse_crop` from `ocr_core.py`: split on commas, strip each part,
require exactly four parts, convert each with `float` (a conversion failure
raises `ValueError`), then require `0 <= x0 < x1 <= 1 and 0 <= y0 < y1 <= 1`. -/
def parse_crop (s : String) : Except String (ℚ × ℚ × ℚ × ℚ) :=
  match (splitComma s.data).map stripL with
  | [a, b, c, d] =>
    match parseFloatQ a, parseFloatQ b, parseFloatQ c, parseFloatQ d with
    | some x0, some y0, some x1, some y1 =>
      if 0 ≤ x0 ∧ x0 < x1 ∧ x1 ≤ 1 ∧ 0 ≤ y0 ∧ y0 < y1 ∧ y1 ≤ 1 then
        .ok (x0, y0, x1, y1)
      else .error "crop must satisfy 0<=x0<x1<=1 and 0<=y0<y1<=1"
    | _, _, _, _ => .error "ValueError: could not convert string to float"
  | _ => .error "--crop must be x0,y0,x1,y1"

/-! ## Single-shot image utility (`ocr_core.py`, `main`)

The image-existence check and the OCR result are oracles; the function
returns the exit code together with what (if anything) was written to the
clipboard. -/

structure CoreMainEnv where
  /-- `os.path.exists(img_path)`. -/
  imageExists : Bool
  /-- Result of `ocr_file_to_text(img_path, cfg)`. -/
  ocrText : String

structure CoreMainResult where
  exitCode : Int
  clipboard : Option String
deriving DecidableEq

/-- `main` from `ocr_core.py`: exit 2 when the image path does not exist;
exit 3 (and no clipboard write) when the recognized text strips to empty;
otherwise copy the text to the clipboard and exit 0. -/
def ocr_core_main (env : CoreMainEnv) : CoreMainResult :=
  if !env.imageExists then ⟨2, none⟩
  else if pyStrip env.ocrText = "" then ⟨3, none⟩
  else ⟨0, some env.ocrText⟩

/-! ## Cropper (`ocr_core.py`, `load_and_crop`)

An image is its pixel dimensions plus a content function; `img.crop(box)`
with box `(l, t, r, b)` yields an `(r-l) × (b-t)` image whose pixel `(i, j)`
is the source pixel `(l+i, t+j)`. -/

structure Img where
  width : Nat
  height : Nat
  pix : Nat → Nat → Int

/-- `img.crop((l, t, r, b))` on an in-bounds box. -/
def cropBox (img : Img) (l t r b : Nat) : Img :=
  ⟨r - l, b - t, fun i j => img.pix (l + i) (t + j)⟩

/-- `int(x)` for a nonnegative rational: truncation toward zero. -/
def truncQ (q : ℚ) : Nat := (⌊q⌋).toNat

/-- `load_and_crop` (after `Image.open(...).convert("RGB")`): with no crop
rectangle, the image unchanged; otherwise crop by the box obtained from the
normalized coordinates scaled by the pixel dimensions and truncated. -/
def load_and_crop (img : Img) : Option (ℚ × ℚ × ℚ × ℚ) → Img
  | none => img
  | some (x0, y0, x1, y1) =>
    cropBox img (truncQ (x0 * img.width)) (truncQ (y0 * img.height))
      (truncQ (x1 * img.width)) (truncQ (y1 * img.height))

/-! ## Overlay cleanup (`ocr_core.py`, `ocr_image_to_text`, cleanup block)

The cleanup is
`out = re.sub(r"(?:\b\d+FPS\b|\bVideo:\d+FPS\b|\bGame:\d+FPS\b|\b\d+x\d+\b)", "", out)`
followed by `out = re.sub(r"\s{2,}", " ", out).strip()`.

The first substitution is modelled by a scanner that at each position tries
the four alternatives in order.  Each alternative starts and ends with a word
character, so the leading `\b` holds exactly when the preceding character is
absent or not a word character, and the trailing `\b` exactly when the next
character is absent or not a word character.  The `\d+` pieces are maximal
digit runs: a shorter run would put a digit where the following literal or
boundary is required, so backtracking never helps.  `re.sub` finds
non-overlapping matches left to right in the original string and removes
them. -/

def FPS : List Char := ['F', 'P', 'S']

def VIDEO : List Char := ['V', 'i', 'd', 'e', 'o', ':']

def GAME : List Char := ['G', 'a', 'm', 'e', ':']

/-- The leading `\b` before a word character, given the preceding character. -/
def boundaryOk : Option Char → Bool
  | none => true
  | some c => !isWordChar c

/-- The trailing `\b` after a word character, given the remaining input. -/
def trailOk : List Char → Bool
  | [] => true
  | c :: _ => !isWordChar c

/-- Consume a literal; `some rest` on success. -/
def dropLit : List Char → List Char → Option (List Char)
  | [], s => some s
  | _ :: _, [] => none
  | l :: ls, c :: cs => if c = l then dropLit ls cs else none

/-- Alternative `\d+FPS\b` (leading `\b` checked by the caller). -/
def altFPS (s : List Char) : Option (List Char × List Char) :=
  let ds := s.takeWhile Char.isDigit
  if ds.isEmpty then none
  else
    match dropLit FPS (s.dropWhile Char.isDigit) with
    | none => none
    | some r => if trailOk r then some (ds ++ FPS, r) else none

/-- Alternative `Video:\d+FPS\b`. -/
def altVideo (s : List Char) : Option (List Char × List Char) :=
  match dropLit VIDEO s with
  | none => none
  | some s1 =>
    match altFPS s1 with
    | none => none
    | some (m, r) => some (VIDEO ++ m, r)

/-- Alternative `Game:\d+FPS\b`. -/
def altGame (s : List Char) : Option (List Char × List Char) :=
  match dropLit GAME s with
  | none => none
  | some s1 =>
    match altFPS s1 with
    | none => none
    | some (m, r) => some (GAME ++ m, r)

/-- Alternative `\d+x\d+\b`. -/
def altRes (s : List Char) : Option (List Char × List Char) :=
  let ds1 := s.takeWhile Char.isDigit
  if ds1.isEmpty then none
  else
    match s.dropWhile Char.isDigit with
    | [] => none
    | c :: s2 =>
      if c = 'x' then
        let ds2 := s2.takeWhile Char.isDigit
        if ds2.isEmpty then none
        else
          let r := s2.dropWhile Char.isDigit
          if trailOk r then some (ds1 ++ 'x' :: ds2, r) else none
      else none

/-- The four alternatives, in the pattern's order. -/
def altsChain (s : List Char) : Option (List Char × List Char) :=
  match altFPS s with
  | some v => some v
  | none =>
    match altVideo s with
    | some v => some v
    | none =>
      match altGame s with
      | some v => some v
      | none => altRes s

/-- Match of the overlay pattern at the current position, given the
preceding character (for the leading `\b`).  On success, the matched text
and the remaining input. -/
def matchAt (prev : Option Char) (s : List Char) : Option (List Char × List Char) :=
  if boundaryOk prev then altsChain s else none

/-- The `re.sub(pattern, "", _)` scanner.  The first argument counts
characters of a found match still to be skipped; the previous character is
tracked for boundary checks.  At skip 0 a match found at the current
position is dropped (its first character is consumed here, the rest via the
skip counter); otherwise the character is kept. -/
def removeGoS : Nat → Option Char → List Char → List Char
  | _, _, [] => []
  | Nat.succ k, _, c :: rest => removeGoS k (some c) rest
  | 0, p, c :: rest =>
    match matchAt p (c :: rest) with
    | some (m, _) => removeGoS (m.length - 1) (some c) rest
    | none => c :: removeGoS 0 (some c) rest

/-- Remove all (non-overlapping, leftmost) overlay-pattern matches. -/
def removeHud (p : Option Char) (s : List Char) : List Char := removeGoS 0 p s

/-- The `re.sub(r"\s{2,}", " ", _)` scanner.  The flag records being inside
a whitespace run whose single replacement space was already emitted. -/
def collapseGo : Bool → List Char → List Char
  | _, [] => []
  | inRun, c :: rest =>
    if isPySpace c then
      if inRun then collapseGo true rest
      else
        match rest with
        | [] => [c]
        | d :: _ =>
          if isPySpace d then ' ' :: collapseGo true rest
          else c :: collapseGo false rest
    else c :: collapseGo false rest

/-- Collapse every run of two or more whitespace characters to one space. -/
def collapseWs (s : List Char) : List Char := collapseGo false s

/-- The cleanup block of `ocr_image_to_text`: remove overlay tokens, collapse
whitespace runs, strip. -/
def cleanHud (s : List Char) : List Char := stripL (collapseWs (removeHud none s))

/-- Cleanup on `String`. -/
def cleanHudStr (s : String) : String := ⟨cleanHud s.data⟩

/-! ### Characterizing a pattern match

`matchAt p s = some (m, r)` happens exactly when `s = m ++ r`, the previous
character allows a leading boundary, the next character allows a trailing
boundary, and `m` has one of the four token shapes. -/

def shapeFPS (m : List Char) : Prop :=
  ∃ ds, ds ≠ [] ∧ (∀ c ∈ ds, c.isDigit = true) ∧ m = ds ++ FPS

def shapeVideo (m : List Char) : Prop :=
  ∃ ds, ds ≠ [] ∧ (∀ c ∈ ds, c.isDigit = true) ∧ m = VIDEO ++ (ds ++ FPS)

def shapeGame (m : List Char) : Prop :=
  ∃ ds, ds ≠ [] ∧ (∀ c ∈ ds, c.isDigit = true) ∧ m = GAME ++ (ds ++ FPS)

def shapeRes (m : List Char) : Prop :=
  ∃ ds1 ds2, ds1 ≠ [] ∧ ds2 ≠ [] ∧ (∀ c ∈ ds1, c.isDigit = true) ∧
    (∀ c ∈ ds2, c.isDigit = true) ∧ m = ds1 ++ 'x' :: ds2

/-- The four token shapes of the overlay pattern. -/
def TokShape (m : List Char) : Prop :=
  shapeFPS m ∨ shapeVideo m ∨ shapeGame m ∨ shapeRes m

theorem takeWhile_all_append {p : Char → Bool} {ds t : List Char}
    (h : ∀ c ∈ ds, p c = true) (h2 : ∀ c, t.head? = some c → p c = false) :
    (ds ++ t).takeWhile p = ds ∧ (ds ++ t).dropWhile p = t := by
  induction ds with
  | nil =>
    cases t with
    | nil => simp
    | cons c t' => simp [List.takeWhile_cons, List.dropWhile_cons, h2 c rfl]
  | cons d ds ih =>
    have hd : p d = true := h d (List.mem_cons_self d ds)
    have := ih (fun c hc => h c (List.mem_cons_of_mem d hc))
    simp [List.takeWhile_cons, List.dropWhile_cons, hd, this.1, this.2]

theorem dropLit_append (lit s : List Char) : dropLit lit (lit ++ s) = some s := by
  induction lit with
  | nil => rfl
  | cons l ls ih => simp [dropLit, ih]

theorem dropLit_some {lit s r : List Char} (h : dropLit lit s = some r) :
    s = lit ++ r := by
  induction lit generalizing s with
  | nil => simpa [dropLit] using h
  | cons l ls ih =>
    cases s with
    | nil => simp [dropLit] at h
    | cons c cs =>
      simp only [dropLit] at h
      split at h
      · next hc => simpa [hc] using congrArg (l :: ·) (ih h)
      · exact absurd h (by simp)

theorem digit_isWord {c : Char} (h : c.isDigit = true) : isWordChar c = true := by
  simp [isWordChar, h]

theorem altFPS_some_iff {s m r : List Char} :
    altFPS s = some (m, r) ↔ shapeFPS m ∧ s = m ++ r ∧ trailOk r = true := by
  constructor
  · intro h
    cases hds : (s.takeWhile Char.isDigit).isEmpty with
    | true => simp [altFPS, hds] at h
    | false =>
      rcases hdl : dropLit FPS (s.dropWhile Char.isDigit) with _ | r0
      · simp [altFPS, hds, hdl] at h
      · cases htr : trailOk r0 with
        | false => simp [altFPS, hds, hdl, htr] at h
        | true =>
          have hmr : s.takeWhile Char.isDigit ++ FPS = m ∧ r0 = r := by
            simpa [altFPS, hds, hdl, htr] using h
          obtain ⟨hm, hr⟩ := hmr
          have hsplit : s = s.takeWhile Char.isDigit ++ s.dropWhile Char.isDigit :=
            (List.takeWhile_append_dropWhile Char.isDigit s).symm
          have hdrop := dropLit_some hdl
          refine ⟨⟨s.takeWhile Char.isDigit, ?_, ?_, hm.symm⟩, ?_, ?_⟩
          · intro hnil; rw [hnil] at hds; simp at hds
          · intro c hc; exact List.mem_takeWhile_imp hc
          · rw [← hm, ← hr, List.append_assoc, ← hdrop]; exact hsplit
          · rw [← hr]; exact htr
  · rintro ⟨⟨ds, hne, hdig, hm⟩, hs, htr⟩
    have hstep : (ds ++ (FPS ++ r)).takeWhile Char.isDigit = ds ∧
        (ds ++ (FPS ++ r)).dropWhile Char.isDigit = FPS ++ r := by
      refine takeWhile_all_append hdig ?_
      intro c hc
      have : c = 'F' := by simpa [FPS] using hc.symm
      rw [this]; rfl
    have hs' : s = ds ++ (FPS ++ r) := by rw [hs, hm, List.append_assoc]
    rw [hs']
    have hemp : ds.isEmpty = false := by
      cases ds with
      | nil => exact absurd rfl hne
      | cons a l => rfl
    simp [altFPS, hstep.1, hstep.2, hemp, dropLit_append, htr, hm]

theorem altVideo_some_iff {s m r : List Char} :
    altVideo s = some (m, r) ↔ shapeVideo m ∧ s = m ++ r ∧ trailOk r = true := by
  constructor
  · intro h
    rcases hdl : dropLit VIDEO s with _ | s1
    · simp [altVideo, hdl] at h
    · rcases hf : altFPS s1 with _ | ⟨m1, r1⟩
      · simp [altVideo, hdl, hf] at h
      · have hmr : VIDEO ++ m1 = m ∧ r1 = r := by simpa [altVideo, hdl, hf] using h
        obtain ⟨hm, hr⟩ := hmr
        obtain ⟨⟨ds, hne, hdig, hm1⟩, hs1, htr⟩ := altFPS_some_iff.mp hf
        refine ⟨⟨ds, hne, hdig, by rw [← hm, hm1]⟩, ?_, ?_⟩
        · rw [← hm, ← hr, List.append_assoc, ← hs1]; exact dropLit_some hdl
        · rw [← hr]; exact htr
  · rintro ⟨⟨ds, hne, hdig, hm⟩, hs, htr⟩
    have hf : altFPS (ds ++ (FPS ++ r)) = some (ds ++ FPS, r) :=
      altFPS_some_iff.mpr ⟨⟨ds, hne, hdig, rfl⟩, (List.append_assoc ds FPS r).symm, htr⟩
    have hs' : s = VIDEO ++ (ds ++ (FPS ++ r)) := by
      rw [hs, hm]; simp [List.append_assoc]
    rw [hs']
    simp [altVideo, dropLit_append, hf, hm]

theorem altGame_some_iff {s m r : List Char} :
    altGame s = some (m, r) ↔ shapeGame m ∧ s = m ++ r ∧ trailOk r = true := by
  constructor
  · intro h
    rcases hdl : dropLit GAME s with _ | s1
    · simp [altGame, hdl] at h
    · rcases hf : altFPS s1 with _ | ⟨m1, r1⟩
      · simp [altGame, hdl, hf] at h
      · have hmr : GAME ++ m1 = m ∧ r1 = r := by simpa [altGame, hdl, hf] using h
        obtain ⟨hm, hr⟩ := hmr
        obtain ⟨⟨ds, hne, hdig, hm1⟩, hs1, htr⟩ := altFPS_some_iff.mp hf
        refine ⟨⟨ds, hne, hdig, by rw [← hm, hm1]⟩, ?_, ?_⟩
        · rw [← hm, ← hr, List.append_assoc, ← hs1]; exact dropLit_some hdl
        · rw [← hr]; exact htr
  · rintro ⟨⟨ds, hne, hdig, hm⟩, hs, htr⟩
    have hf : altFPS (ds ++ (FPS ++ r)) = some (ds ++ FPS, r) :=
      altFPS_some_iff.mpr ⟨⟨ds, hne, hdig, rfl⟩, (List.append_assoc ds FPS r).symm, htr⟩
    have hs' : s = GAME ++ (ds ++ (FPS ++ r)) := by
      rw [hs, hm]; simp [List.append_assoc]
    rw [hs']
    simp [altGame, dropLit_append, hf, hm]

theorem trail_head_not_digit {r : List Char} (htr : trailOk r = true) :
    ∀ c, r.head? = some c → c.isDigit = false := by
  intro c hc
  cases r with
  | nil => simp at hc
  | cons e t =>
    have he : e = c := by simpa using hc
    simp only [trailOk, Bool.not_eq_true'] at htr
    rw [← he]
    cases hd : e.isDigit with
    | false => rfl
    | true => exact absurd (digit_isWord hd) (by simp [htr])

theorem altRes_some_iff {s m r : List Char} :
    altRes s = some (m, r) ↔ shapeRes m ∧ s = m ++ r ∧ trailOk r = true := by
  constructor
  · intro h
    cases hds : (s.takeWhile Char.isDigit).isEmpty with
    | true => simp [altRes, hds] at h
    | false =>
      rcases hdw : s.dropWhile Char.isDigit with _ | ⟨c, s2⟩
      · simp [altRes, hds, hdw] at h
      · by_cases hc : c = 'x'
        · subst hc
          cases hds2 : (s2.takeWhile Char.isDigit).isEmpty with
          | true => simp [altRes, hds, hdw, hds2] at h
          | false =>
            cases htr : trailOk (s2.dropWhile Char.isDigit) with
            | false => simp [altRes, hds, hdw, hds2, htr] at h
            | true =>
              have hmr : s.takeWhile Char.isDigit ++ 'x' :: s2.takeWhile Char.isDigit = m ∧
                  s2.dropWhile Char.isDigit = r := by
                simpa [altRes, hds, hdw, hds2, htr] using h
              obtain ⟨hm, hr⟩ := hmr
              refine ⟨⟨s.takeWhile Char.isDigit, s2.takeWhile Char.isDigit, ?_, ?_,
                (fun c hc => List.mem_takeWhile_imp hc),
                (fun c hc => List.mem_takeWhile_imp hc), hm.symm⟩, ?_, ?_⟩
              · intro hnil; rw [hnil] at hds; simp at hds
              · intro hnil; rw [hnil] at hds2; simp at hds2
              · rw [← hm, ← hr]
                have base : s = s.takeWhile Char.isDigit ++ ('x' :: s2) := by
                  conv_lhs => rw [← List.takeWhile_append_dropWhile Char.isDigit s, hdw]
                have base2 : s2 = s2.takeWhile Char.isDigit ++ s2.dropWhile Char.isDigit :=
                  (List.takeWhile_append_dropWhile Char.isDigit s2).symm
                calc s = s.takeWhile Char.isDigit ++ ('x' :: s2) := base
                  _ = s.takeWhile Char.isDigit ++
                      ('x' :: (s2.takeWhile Char.isDigit ++ s2.dropWhile Char.isDigit)) := by
                        conv_lhs => rw [base2]
                  _ = (s.takeWhile Char.isDigit ++ 'x' :: s2.takeWhile Char.isDigit) ++
                      s2.dropWhile Char.isDigit := by simp
              · rw [← hr]; exact htr
        · simp [altRes, hds, hdw, hc] at h
  · rintro ⟨⟨ds1, ds2, hne1, hne2, hdig1, hdig2, hm⟩, hs, htr⟩
    have hstep2 : (ds2 ++ r).takeWhile Char.isDigit = ds2 ∧
        (ds2 ++ r).dropWhile Char.isDigit = r :=
      takeWhile_all_append hdig2 (trail_head_not_digit htr)
    have hstep1 : (ds1 ++ ('x' :: (ds2 ++ r))).takeWhile Char.isDigit = ds1 ∧
        (ds1 ++ ('x' :: (ds2 ++ r))).dropWhile Char.isDigit = 'x' :: (ds2 ++ r) := by
      refine takeWhile_all_append hdig1 ?_
      intro c hc
      have : c = 'x' := by simpa using hc.symm
      rw [this]; rfl
    have hs' : s = ds1 ++ ('x' :: (ds2 ++ r)) := by
      rw [hs, hm]; simp
    have hemp1 : ds1.isEmpty = false := by
      cases ds1 with
      | nil => exact absurd rfl hne1
      | cons a l => rfl
    have hemp2 : ds2.isEmpty = false := by
      cases ds2 with
      | nil => exact absurd rfl hne2
      | cons a l => rfl
    rw [hs']
    simp [altRes, hstep1.1, hstep1.2, hstep2.1, hstep2.2, hemp1, hemp2, htr, hm]

theorem altFPS_none_of_head {c : Char} (t : List Char) (h : c.isDigit = false) :
    altFPS (c :: t) = none := by
  simp [altFPS, List.takeWhile_cons, h]

theorem altVideo_none_of_head {c : Char} (t : List Char) (h : ¬c = 'V') :
    altVideo (c :: t) = none := by
  simp [altVideo, VIDEO, dropLit, h]

theorem altGame_none_of_head {c : Char} (t : List Char) (h : ¬c = 'G') :
    altGame (c :: t) = none := by
  simp [altGame, GAME, dropLit, h]

theorem altsChain_some_iff {s m r : List Char} :
    altsChain s = some (m, r) ↔ TokShape m ∧ s = m ++ r ∧ trailOk r = true := by
  constructor
  · intro h
    rcases h1 : altFPS s with _ | ⟨m1, r1⟩
    · rcases h2 : altVideo s with _ | ⟨m2, r2⟩
      · rcases h3 : altGame s with _ | ⟨m3, r3⟩
        · have h4 : altRes s = some (m, r) := by simpa [altsChain, h1, h2, h3] using h
          obtain ⟨hsh, hs, htr⟩ := altRes_some_iff.mp h4
          exact ⟨Or.inr (Or.inr (Or.inr hsh)), hs, htr⟩
        · have : m3 = m ∧ r3 = r := by simpa [altsChain, h1, h2, h3] using h
          obtain ⟨rfl, rfl⟩ := this
          obtain ⟨hsh, hs, htr⟩ := altGame_some_iff.mp h3
          exact ⟨Or.inr (Or.inr (Or.inl hsh)), hs, htr⟩
      · have : m2 = m ∧ r2 = r := by simpa [altsChain, h1, h2] using h
        obtain ⟨rfl, rfl⟩ := this
        obtain ⟨hsh, hs, htr⟩ := altVideo_some_iff.mp h2
        exact ⟨Or.inr (Or.inl hsh), hs, htr⟩
    · have : m1 = m ∧ r1 = r := by simpa [altsChain, h1] using h
      obtain ⟨rfl, rfl⟩ := this
      obtain ⟨hsh, hs, htr⟩ := altFPS_some_iff.mp h1
      exact ⟨Or.inl hsh, hs, htr⟩
  · rintro ⟨hsh, hs, htr⟩
    rcases hsh with hsh | hsh | hsh | hsh
    · have h1 : altFPS s = some (m, r) := altFPS_some_iff.mpr ⟨hsh, hs, htr⟩
      simp [altsChain, h1]
    · have h2 : altVideo s = some (m, r) := altVideo_some_iff.mpr ⟨hsh, hs, htr⟩
      obtain ⟨ds, hne, hdig, hm⟩ := hsh
      have hsV : s = 'V' :: ('i' :: 'd' :: 'e' :: 'o' :: ':' :: (ds ++ FPS ++ r)) := by
        rw [hs, hm]; simp [VIDEO, List.append_assoc]
      have h1 : altFPS s = none := by rw [hsV]; exact altFPS_none_of_head _ (by rfl)
      simp [altsChain, h1, h2]
    · have h3 : altGame s = some (m, r) := altGame_some_iff.mpr ⟨hsh, hs, htr⟩
      obtain ⟨ds, hne, hdig, hm⟩ := hsh
      have hsG : s = 'G' :: ('a' :: 'm' :: 'e' :: ':' :: (ds ++ FPS ++ r)) := by
        rw [hs, hm]; simp [GAME, List.append_assoc]
      have h1 : altFPS s = none := by rw [hsG]; exact altFPS_none_of_head _ (by rfl)
      have h2 : altVideo s = none := by rw [hsG]; exact altVideo_none_of_head _ (by decide)
      simp [altsChain, h1, h2, h3]
    · have h4 : altRes s = some (m, r) := altRes_some_iff.mpr ⟨hsh, hs, htr⟩
      obtain ⟨ds1, ds2, hne1, hne2, hdig1, hdig2, hm⟩ := hsh
      have hs' : s = ds1 ++ ('x' :: (ds2 ++ r)) := by rw [hs, hm]; simp
      have hstep1 : (ds1 ++ ('x' :: (ds2 ++ r))).takeWhile Char.isDigit = ds1 ∧
          (ds1 ++ ('x' :: (ds2 ++ r))).dropWhile Char.isDigit = 'x' :: (ds2 ++ r) := by
        refine takeWhile_all_append hdig1 ?_
        intro c hc
        have : c = 'x' := by simpa using hc.symm
        rw [this]; rfl
      have h1 : altFPS s = none := by
        rw [hs']
        simp [altFPS, hstep1.1, hstep1.2, FPS, dropLit]
      obtain ⟨d, ds1', rfl⟩ : ∃ d ds1', ds1 = d :: ds1' := by
        cases ds1 with
        | nil => exact absurd rfl hne1
        | cons d l => exact ⟨d, l, rfl⟩
      have hdd : d.isDigit = true := hdig1 d (List.mem_cons_self d ds1')
      have hsD : s = d :: (ds1' ++ 'x' :: (ds2 ++ r)) := by
        rw [hs']; rfl
      have h2 : altVideo s = none := by
        rw [hsD]
        refine altVideo_none_of_head _ ?_
        intro hdV; rw [hdV] at hdd; exact absurd hdd (by decide)
      have h3 : altGame s = none := by
        rw [hsD]
        refine altGame_none_of_head _ ?_
        intro hdG; rw [hdG] at hdd; exact absurd hdd (by decide)
      simp [altsChain, h1, h2, h3, h4]

/-- The full characterization of a match at a position. -/
theorem matchAt_some_iff {p : Option Char} {s m r : List Char} :
    matchAt p s = some (m, r) ↔
      boundaryOk p = true ∧ TokShape m ∧ s = m ++ r ∧ trailOk r = true := by
  cases hb : boundaryOk p <;> simp [matchAt, hb, altsChain_some_iff]

/-! ### Structural facts about token shapes -/

/-- No two adjacent characters are both non-word characters. -/
def pairsOk : List Char → Bool
  | a :: b :: t => (isWordChar a || isWordChar b) && pairsOk (b :: t)
  | _ => true

theorem tokShape_head {m : List Char} (h : TokShape m) :
    ∃ c t, m = c :: t ∧ isWordChar c = true := by
  rcases h with ⟨ds, hne, hdig, hm⟩ | ⟨ds, hne, hdig, hm⟩ | ⟨ds, hne, hdig, hm⟩ |
    ⟨ds1, ds2, hne1, hne2, hdig1, hdig2, hm⟩
  · obtain ⟨d, ds', rfl⟩ : ∃ d ds', ds = d :: ds' := by
      cases ds with
      | nil => exact absurd rfl hne
      | cons d l => exact ⟨d, l, rfl⟩
    exact ⟨d, ds' ++ FPS, by simp [hm], digit_isWord (hdig d (List.mem_cons_self d ds'))⟩
  · exact ⟨'V', ('i' :: 'd' :: 'e' :: 'o' :: ':' :: (ds ++ FPS)), by simp [hm, VIDEO], by decide⟩
  · exact ⟨'G', ('a' :: 'm' :: 'e' :: ':' :: (ds ++ FPS)), by simp [hm, GAME], by decide⟩
  · obtain ⟨d, ds', rfl⟩ : ∃ d ds', ds1 = d :: ds' := by
      cases ds1 with
      | nil => exact absurd rfl hne1
      | cons d l => exact ⟨d, l, rfl⟩
    exact ⟨d, ds' ++ 'x' :: ds2, by simp [hm], digit_isWord (hdig1 d (List.mem_cons_self d ds'))⟩

theorem tokShape_ne_nil {m : List Char} (h : TokShape m) : m ≠ [] := by
  obtain ⟨c, t, hm, _⟩ := tokShape_head h
  rw [hm]; simp

theorem tokShape_concat {m : List Char} (h : TokShape m) :
    ∃ t b, m = t ++ [b] ∧ isWordChar b = true := by
  rcases h with ⟨ds, hne, hdig, hm⟩ | ⟨ds, hne, hdig, hm⟩ | ⟨ds, hne, hdig, hm⟩ |
    ⟨ds1, ds2, hne1, hne2, hdig1, hdig2, hm⟩
  · exact ⟨ds ++ ['F', 'P'], 'S', by simp [hm, FPS], by decide⟩
  · exact ⟨VIDEO ++ ds ++ ['F', 'P'], 'S', by simp [hm, FPS], by decide⟩
  · exact ⟨GAME ++ ds ++ ['F', 'P'], 'S', by simp [hm, FPS], by decide⟩
  · rcases List.eq_nil_or_concat ds2 with h2 | ⟨L, b, h2⟩
    · exact absurd h2 hne2
    · have hb : b.isDigit = true := hdig2 b (by simp [h2])
      exact ⟨ds1 ++ 'x' :: L, b, by simp [hm, h2], digit_isWord hb⟩

theorem tokShape_chars {m : List Char} (h : TokShape m) :
    ∀ c ∈ m, isWordChar c = true ∨ c = ':' := by
  rcases h with ⟨ds, hne, hdig, hm⟩ | ⟨ds, hne, hdig, hm⟩ | ⟨ds, hne, hdig, hm⟩ |
    ⟨ds1, ds2, hne1, hne2, hdig1, hdig2, hm⟩ <;> subst hm <;> intro c hc
  · rcases List.mem_append.mp hc with hc | hc
    · exact Or.inl (digit_isWord (hdig c hc))
    · simp [FPS] at hc
      rcases hc with rfl | rfl | rfl <;> exact Or.inl (by decide)
  · rcases List.mem_append.mp hc with hc | hc
    · simp [VIDEO] at hc
      rcases hc with rfl | rfl | rfl | rfl | rfl | rfl
      · exact Or.inl (by decide)
      · exact Or.inl (by decide)
      · exact Or.inl (by decide)
      · exact Or.inl (by decide)
      · exact Or.inl (by decide)
      · exact Or.inr rfl
    · rcases List.mem_append.mp hc with hc | hc
      · exact Or.inl (digit_isWord (hdig c hc))
      · simp [FPS] at hc
        rcases hc with rfl | rfl | rfl <;> exact Or.inl (by decide)
  · rcases List.mem_append.mp hc with hc | hc
    · simp [GAME] at hc
      rcases hc with rfl | rfl | rfl | rfl | rfl
      · exact Or.inl (by decide)
      · exact Or.inl (by decide)
      · exact Or.inl (by decide)
      · exact Or.inl (by decide)
      · exact Or.inr rfl
    · rcases List.mem_append.mp hc with hc | hc
      · exact Or.inl (digit_isWord (hdig c hc))
      · simp [FPS] at hc
        rcases hc with rfl | rfl | rfl <;> exact Or.inl (by decide)
  · rcases List.mem_append.mp hc with hc | hc
    · exact Or.inl (digit_isWord (hdig1 c hc))
    · simp at hc
      rcases hc with rfl | hc
      · exact Or.inl (by decide)
      · exact Or.inl (digit_isWord (hdig2 c hc))

theorem ws_not_word {c : Char} (h : isPySpace c = true) : isWordChar c = false := by
  simp [isPySpace] at h
  rcases h with ((((rfl | rfl) | rfl) | rfl) | rfl) | rfl <;> decide

theorem tokShape_no_space {m : List Char} (h : TokShape m) :
    ∀ c ∈ m, isPySpace c = false := by
  intro c hc
  cases hsp : isPySpace c with
  | false => rfl
  | true =>
    rcases tokShape_chars h c hc with hw | hcol
    · rw [ws_not_word hsp] at hw; exact absurd hw (by simp)
    · rw [hcol] at hsp; exact absurd hsp (by decide)

theorem pairsOk_of_all_word {l : List Char} (h : ∀ c ∈ l, isWordChar c = true) :
    pairsOk l = true := by
  induction l with
  | nil => rfl
  | cons a t ih =>
    cases t with
    | nil => rfl
    | cons b t' =>
      have ha : isWordChar a = true := h a (List.mem_cons_self a _)
      have ht : pairsOk (b :: t') = true := ih (fun c hc => h c (List.mem_cons_of_mem a hc))
      simp [pairsOk, ha, ht]

theorem pairsOk_cons_of {a : Char} {l : List Char} (hl : pairsOk l = true)
    (ha : ∀ b, l.head? = some b → (isWordChar a || isWordChar b) = true) :
    pairsOk (a :: l) = true := by
  cases l with
  | nil => rfl
  | cons b t => simp [pairsOk, ha b rfl, hl]

theorem tokShape_pairs {m : List Char} (h : TokShape m) : pairsOk m = true := by
  have hall : ∀ (ds : List Char), (∀ c ∈ ds, c.isDigit = true) →
      pairsOk (ds ++ FPS) = true := by
    intro ds hdig
    refine pairsOk_of_all_word ?_
    intro c hc
    rcases List.mem_append.mp hc with hc | hc
    · exact digit_isWord (hdig c hc)
    · simp [FPS] at hc
      rcases hc with rfl | rfl | rfl <;> decide
  rcases h with ⟨ds, hne, hdig, hm⟩ | ⟨ds, hne, hdig, hm⟩ | ⟨ds, hne, hdig, hm⟩ |
    ⟨ds1, ds2, hne1, hne2, hdig1, hdig2, hm⟩ <;> subst hm
  · exact hall ds hdig
  · obtain ⟨d, ds', rfl⟩ : ∃ d ds', ds = d :: ds' := by
      cases ds with
      | nil => exact absurd rfl hne
      | cons d l => exact ⟨d, l, rfl⟩
    have hd : isWordChar d = true := digit_isWord (hdig d (List.mem_cons_self d ds'))
    have base : pairsOk ((d :: ds') ++ FPS) = true := hall _ hdig
    simp only [VIDEO, List.cons_append, List.nil_append]
    simp only [List.cons_append] at base
    simp [pairsOk, hd, base]
    decide
  · obtain ⟨d, ds', rfl⟩ : ∃ d ds', ds = d :: ds' := by
      cases ds with
      | nil => exact absurd rfl hne
      | cons d l => exact ⟨d, l, rfl⟩
    have hd : isWordChar d = true := digit_isWord (hdig d (List.mem_cons_self d ds'))
    have base : pairsOk ((d :: ds') ++ FPS) = true := hall _ hdig
    simp only [GAME, List.cons_append, List.nil_append]
    simp only [List.cons_append] at base
    simp [pairsOk, hd, base]
    decide
  · refine pairsOk_of_all_word ?_
    intro c hc
    rcases List.mem_append.mp hc with hc | hc
    · exact digit_isWord (hdig1 c hc)
    · simp at hc
      rcases hc with rfl | hc
      · decide
      · exact digit_isWord (hdig2 c hc)

theorem pairsOk_break {A t : List Char} {e : Char}
    (h : pairsOk (A ++ e :: t) = true) :
    ∀ b, A.getLast? = some b → (isWordChar b || isWordChar e) = true := by
  induction A with
  | nil => intro b hb; simp at hb
  | cons a A' ih =>
    intro b hb
    cases A' with
    | nil =>
      have hba : a = b := by simpa using hb
      have h2 : (isWordChar a = true ∨ isWordChar e = true) ∧ pairsOk (e :: t) = true := by
        simpa [pairsOk] using h
      rw [← hba]
      simp [h2.1]
    | cons a2 A'' =>
      have h2 : (isWordChar a = true ∨ isWordChar a2 = true) ∧
          pairsOk (a2 :: (A'' ++ e :: t)) = true := by
        simpa [pairsOk] using h
      have hb' : (a2 :: A'').getLast? = some b := by
        rw [← List.getLast?_cons_cons]; exact hb
      exact ih (by simpa using h2.2) b hb'

/-! ### Unfolding the removal scanner -/

/-- The last character of `l`, or `q` when `l` is empty: the boundary context
after scanning past `l`. -/
def lastOpt (q : Option Char) : List Char → Option Char
  | [] => q
  | c :: rest => lastOpt (some c) rest

theorem lastOpt_append (q : Option Char) (l1 l2 : List Char) :
    lastOpt q (l1 ++ l2) = lastOpt (lastOpt q l1) l2 := by
  induction l1 generalizing q with
  | nil => rfl
  | cons a t ih => simpa [lastOpt] using ih (some a)

theorem lastOpt_cons_getLast? (c : Char) (l : List Char) :
    lastOpt (some c) l = (c :: l).getLast? := by
  induction l generalizing c with
  | nil => simp [lastOpt]
  | cons d t ih =>
    rw [List.getLast?_cons_cons]
    exact ih d

theorem lastOpt_some_isSome (c : Char) (pre : List Char) :
    ∃ b, lastOpt (some c) pre = some b := by
  induction pre generalizing c with
  | nil => exact ⟨c, rfl⟩
  | cons d t ih => exact ih d

theorem removeGoS_skip (X : List Char) : ∀ (q : Option Char) (Y : List Char),
    removeGoS X.length q (X ++ Y) = removeGoS 0 (lastOpt q X) Y := by
  induction X with
  | nil => intro q Y; rfl
  | cons a t ih =>
    intro q Y
    have h1 : removeGoS (t.length + 1) q (a :: (t ++ Y)) =
        removeGoS t.length (some a) (t ++ Y) := rfl
    simpa [lastOpt, h1] using ih (some a) Y

theorem removeHud_cons_none {p : Option Char} {c : Char} {rest : List Char}
    (h : matchAt p (c :: rest) = none) :
    removeHud p (c :: rest) = c :: removeHud (some c) rest := by
  simp [removeHud, removeGoS, h]

theorem matchAt_rest_lt {p : Option Char} {s m r : List Char}
    (h : matchAt p s = some (m, r)) : r.length < s.length := by
  obtain ⟨_, hsh, hs, _⟩ := matchAt_some_iff.mp h
  obtain ⟨c, t, hm, _⟩ := tokShape_head hsh
  rw [hs, hm]
  simp only [List.length_append, List.length_cons]
  omega

theorem removeHud_cons_some {p : Option Char} {c : Char} {rest m r : List Char}
    (h : matchAt p (c :: rest) = some (m, r)) :
    removeHud p (c :: rest) = removeHud (lastOpt p m) r := by
  obtain ⟨hb, hsh, hs, htr⟩ := matchAt_some_iff.mp h
  cases m with
  | nil => exact absurd rfl (tokShape_ne_nil hsh)
  | cons c0 m' =>
    have hc : c = c0 ∧ rest = m' ++ r := by simpa using hs
    obtain ⟨rfl, hrest⟩ := hc
    calc removeGoS 0 p (c :: rest)
        = removeGoS ((c :: m').length - 1) (some c) rest := by simp [removeGoS, h]
      _ = removeGoS m'.length (some c) (m' ++ r) := by rw [hrest]; simp
      _ = removeGoS 0 (lastOpt (some c) m') r := removeGoS_skip m' (some c) r

theorem matchAt_none_of_head {p : Option Char} {c : Char} {t : List Char}
    (h : isWordChar c = false) : matchAt p (c :: t) = none := by
  rcases hm : matchAt p (c :: t) with _ | ⟨m, r⟩
  · rfl
  · obtain ⟨_, hsh, hs, _⟩ := matchAt_some_iff.mp hm
    obtain ⟨c0, t0, hm0, hw⟩ := tokShape_head hsh
    rw [hm0] at hs
    obtain ⟨hcc, -⟩ : c = c0 ∧ t = t0 ++ r := by simpa using hs
    rw [← hcc] at hw
    rw [hw] at h
    exact absurd h (by simp)

theorem removeHud_headSafe {r2 : List Char} (q : Option Char) (htr : trailOk r2 = true) :
    removeHud q r2 = [] ∨ ∃ e t, removeHud q r2 = e :: t ∧ isWordChar e = false := by
  cases r2 with
  | nil => exact Or.inl rfl
  | cons e r' =>
    have he : isWordChar e = false := by simpa [trailOk] using htr
    exact Or.inr ⟨e, removeHud (some e) r',
      removeHud_cons_none (matchAt_none_of_head he), he⟩

/-- First-removal decomposition of the scanner: either it changes nothing,
or the input splits as an untouched prefix, a first match, and a remainder. -/
theorem removeHud_decomp : ∀ (n : Nat) (p : Option Char) (s : List Char), s.length ≤ n →
    removeHud p s = s ∨
    ∃ pre m2 r2, s = pre ++ (m2 ++ r2) ∧
      matchAt (lastOpt p pre) (m2 ++ r2) = some (m2, r2) ∧
      removeHud p s = pre ++ removeHud (lastOpt p (pre ++ m2)) r2 := by
  intro n
  induction n with
  | zero =>
    intro p s hlen
    have : s = [] := List.eq_nil_of_length_eq_zero (Nat.le_zero.mp hlen)
    rw [this]; exact Or.inl rfl
  | succ n ih =>
    intro p s hlen
    cases s with
    | nil => exact Or.inl rfl
    | cons c rest =>
      rcases hm : matchAt p (c :: rest) with _ | ⟨m, r⟩
      · have hr : rest.length ≤ n := by
          simp only [List.length_cons] at hlen; omega
        rcases ih (some c) rest hr with hid | ⟨pre, m2, r2, hdec, hmat, hout⟩
        · left
          rw [removeHud_cons_none hm, hid]
        · right
          refine ⟨c :: pre, m2, r2, by rw [List.cons_append, ← hdec], hmat, ?_⟩
          rw [removeHud_cons_none hm, hout]
          rfl
      · right
        obtain ⟨hb, hsh, hs, htr⟩ := matchAt_some_iff.mp hm
        refine ⟨[], m, r, by simpa using hs, ?_, ?_⟩
        · show matchAt p (m ++ r) = some (m, r)
          rw [← hs]; exact hm
        · rw [removeHud_cons_some hm]
          rfl

/-- A position with no match keeps having no match after the scanner rewrites
the rest of the input. -/
theorem matchAt_stable {p : Option Char} {c : Char} {rest : List Char}
    (h : matchAt p (c :: rest) = none) :
    matchAt p (c :: removeHud (some c) rest) = none := by
  rcases removeHud_decomp rest.length (some c) rest le_rfl with hid | ⟨pre, m2, r2, hdec, hmat, hout⟩
  · rw [hid]; exact h
  · rw [hout]
    obtain ⟨hb2, hsh2, _, htr2⟩ := matchAt_some_iff.mp hmat
    obtain ⟨b, hbeq⟩ := lastOpt_some_isSome c pre
    have hbw : isWordChar b = false := by
      rw [hbeq] at hb2
      simpa [boundaryOk] using hb2
    have hblast : (c :: pre).getLast? = some b := by
      rw [← lastOpt_cons_getLast?, hbeq]
    rcases hcon : matchAt p (c :: (pre ++ removeHud (lastOpt (some c) (pre ++ m2)) r2))
        with _ | ⟨m, r⟩
    · rfl
    · exfalso
      set OUT2 := removeHud (lastOpt (some c) (pre ++ m2)) r2 with hOUT2
      obtain ⟨hbp, hsh, hs, htr⟩ := matchAt_some_iff.mp hcon
      have hs' : m ++ r = (c :: pre) ++ OUT2 := by
        rw [← hs]; rfl
      have hmne : m ≠ c :: pre := by
        intro hmeq
        obtain ⟨t0, bw, hcat, hbww⟩ := tokShape_concat hsh
        have : (c :: pre).getLast? = some bw := by
          rw [← hmeq, hcat]; exact List.getLast?_concat t0
        rw [hblast] at this
        have : b = bw := by simpa using this
        rw [← this] at hbww
        rw [hbww] at hbw
        exact absurd hbw (by simp)
      rcases List.append_eq_append_iff.mp hs' with ⟨A', h1, h2⟩ | ⟨C', h1, h2⟩
      · cases A' with
        | nil => exact hmne (by simpa using h1.symm)
        | cons a A'' =>
          have htra : isWordChar a = false := by
            have : trailOk ((a :: A'') ++ OUT2) = true := by rw [← h2]; exact htr
            simpa [trailOk] using this
          have hcontra : matchAt p (c :: rest) = some (m, (a :: A'') ++ (m2 ++ r2)) := by
            refine matchAt_some_iff.mpr ⟨hbp, hsh, ?_, by simp [trailOk, htra]⟩
            rw [hdec]
            calc c :: (pre ++ (m2 ++ r2))
                = (c :: pre) ++ (m2 ++ r2) := rfl
              _ = (m ++ a :: A'') ++ (m2 ++ r2) := by rw [h1]
              _ = m ++ ((a :: A'') ++ (m2 ++ r2)) := by simp
          rw [hcontra] at h
          exact absurd h (by simp)
      · cases C' with
        | nil => exact hmne (by simpa using h1)
        | cons e C'' =>
          have hew : isWordChar e = false := by
            rcases removeHud_headSafe (lastOpt (some c) (pre ++ m2)) htr2 with hnil | ⟨e0, t0, hOUT, he0⟩
            · rw [← hOUT2] at hnil
              rw [hnil] at h2
              exact absurd h2 (by simp)
            · rw [← hOUT2] at hOUT
              rw [hOUT] at h2
              obtain ⟨he01, -⟩ : e0 = e ∧ t0 = C'' ++ r := by simpa using h2
              rw [← he01]; exact he0
          have hpairs : pairsOk m = true := tokShape_pairs hsh
          rw [h1] at hpairs
          have := pairsOk_break (by simpa using hpairs) b hblast
          rw [hbw, hew] at this
          exact absurd this (by simp)

/-! ### The scanner output is match-free -/

/-- No overlay-pattern match at any position of `s`, scanning with initial
boundary context `p`. -/
def noMatch : Option Char → List Char → Bool
  | _, [] => true
  | p, c :: rest => (matchAt p (c :: rest)).isNone && noMatch (some c) rest

theorem matchAt_congr {p1 p2 : Option Char} (h : boundaryOk p1 = boundaryOk p2)
    (s : List Char) : matchAt p1 s = matchAt p2 s := by
  simp [matchAt, h]

theorem noMatch_congr {p1 p2 : Option Char} (h : boundaryOk p1 = boundaryOk p2)
    (s : List Char) : noMatch p1 s = noMatch p2 s := by
  cases s with
  | nil => rfl
  | cons c rest => simp [noMatch, matchAt_congr h]

theorem noMatch_cons_iff {p : Option Char} {c : Char} {rest : List Char} :
    noMatch p (c :: rest) = true ↔
      matchAt p (c :: rest) = none ∧ noMatch (some c) rest = true := by
  simp [noMatch, Option.isNone_iff_eq_none]

theorem noMatch_mono {q : Option Char} {X : List Char}
    (h : noMatch q X = true) (hq : boundaryOk q = true) (p : Option Char) :
    noMatch p X = true := by
  cases X with
  | nil => rfl
  | cons c rest =>
    obtain ⟨h1, h2⟩ := noMatch_cons_iff.mp h
    cases hb : boundaryOk p with
    | false =>
      refine noMatch_cons_iff.mpr ⟨by simp [matchAt, hb], h2⟩
    | true =>
      refine noMatch_cons_iff.mpr ⟨?_, h2⟩
      rw [matchAt_congr (show boundaryOk p = boundaryOk q by rw [hb, hq])]
      exact h1

/-- The removal scanner's output contains no match of the overlay pattern. -/
theorem noMatch_removeHud : ∀ (n : Nat) (p : Option Char) (s : List Char),
    s.length ≤ n → noMatch p (removeHud p s) = true := by
  intro n
  induction n with
  | zero =>
    intro p s hlen
    have : s = [] := List.eq_nil_of_length_eq_zero (Nat.le_zero.mp hlen)
    rw [this]; rfl
  | succ n ih =>
    intro p s hlen
    cases s with
    | nil => rfl
    | cons c rest =>
      rcases hm : matchAt p (c :: rest) with _ | ⟨m, r⟩
      · rw [removeHud_cons_none hm]
        have hr : rest.length ≤ n := by
          simp only [List.length_cons] at hlen; omega
        exact noMatch_cons_iff.mpr ⟨matchAt_stable hm, ih (some c) rest hr⟩
      · rw [removeHud_cons_some hm]
        obtain ⟨hb, hsh, hs, htr⟩ := matchAt_some_iff.mp hm
        have hrl : r.length ≤ n := by
          have := matchAt_rest_lt hm
          simp only [List.length_cons] at this hlen
          omega
        have h2 := ih (lastOpt p m) r hrl
        rcases removeHud_headSafe (lastOpt p m) htr with hnil | ⟨e, t, hout, he⟩
        · rw [hnil]; rfl
        · rw [hout]
          rw [hout] at h2
          exact noMatch_cons_iff.mpr
            ⟨matchAt_none_of_head he, (noMatch_cons_iff.mp h2).2⟩

/-- On match-free input the removal scanner is the identity. -/
theorem removeHud_of_noMatch : ∀ (s : List Char) (p : Option Char),
    noMatch p s = true → removeHud p s = s := by
  intro s
  induction s with
  | nil => intro p _; rfl
  | cons c rest ih =>
    intro p h
    obtain ⟨h1, h2⟩ := noMatch_cons_iff.mp h
    rw [removeHud_cons_none h1, ih (some c) h2]

/-! ### Whitespace collapse -/

/-- No two adjacent whitespace characters. -/
def noTwoWs : List Char → Bool
  | a :: b :: t => !(isPySpace a && isPySpace b) && noTwoWs (b :: t)
  | _ => true

theorem cg_skip {run : List Char} (t : List Char)
    (h : ∀ c ∈ run, isPySpace c = true) :
    collapseGo true (run ++ t) = collapseGo true t := by
  induction run with
  | nil => rfl
  | cons a run' ih =>
    have ha : isPySpace a = true := h a (List.mem_cons_self a run')
    have := ih (fun c hc => h c (List.mem_cons_of_mem a hc))
    simpa [collapseGo, ha] using this

theorem cg_true_eq_false {t : List Char}
    (h : t = [] ∨ ∃ e t', t = e :: t' ∧ isPySpace e = false) :
    collapseGo true t = collapseGo false t := by
  rcases h with rfl | ⟨e, t', rfl, he⟩
  · rfl
  · simp [collapseGo, he]

theorem dropWhile_head_false (q : Char → Bool) (l : List Char) :
    l.dropWhile q = [] ∨ ∃ e t, l.dropWhile q = e :: t ∧ q e = false := by
  induction l with
  | nil => exact Or.inl rfl
  | cons c rest ih =>
    cases hc : q c with
    | true => simpa [List.dropWhile_cons, hc] using ih
    | false => exact Or.inr ⟨c, rest, by simp [List.dropWhile_cons, hc], hc⟩

theorem collapseGo_true_run (l : List Char) :
    collapseGo true l = collapseGo false (l.dropWhile isPySpace) := by
  conv_lhs => rw [← List.takeWhile_append_dropWhile isPySpace l]
  rw [cg_skip _ (fun c hc => List.mem_takeWhile_imp hc)]
  exact cg_true_eq_false (by
    rcases dropWhile_head_false isPySpace l with h | ⟨e, t, h, he⟩
    · exact Or.inl h
    · exact Or.inr ⟨e, t, h, he⟩)

/-- First-replacement decomposition of the collapse scanner. -/
theorem collapseGo_decomp : ∀ s : List Char,
    collapseGo false s = s ∨
    ∃ pre w1 w2 t, s = pre ++ (w1 :: w2 :: t) ∧ isPySpace w1 = true ∧
      isPySpace w2 = true ∧
      collapseGo false s = pre ++ (' ' :: collapseGo true (w2 :: t)) := by
  intro s
  induction s with
  | nil => exact Or.inl rfl
  | cons c rest ih =>
    cases hc : isPySpace c with
    | false =>
      have hout : collapseGo false (c :: rest) = c :: collapseGo false rest := by
        cases rest <;> simp [collapseGo, hc]
      rcases ih with hid | ⟨pre, w1, w2, t, hdec, hw1, hw2, hcol⟩
      · exact Or.inl (by rw [hout, hid])
      · exact Or.inr ⟨c :: pre, w1, w2, t, by rw [List.cons_append, ← hdec],
          hw1, hw2, by rw [hout, hcol]; rfl⟩
    | true =>
      cases rest with
      | nil => exact Or.inl (by simp [collapseGo, hc])
      | cons d t =>
        cases hd : isPySpace d with
        | true =>
          exact Or.inr ⟨[], c, d, t, rfl, hc, hd, by simp [collapseGo, hc, hd]⟩
        | false =>
          have hout : collapseGo false (c :: d :: t) = c :: collapseGo false (d :: t) := by
            simp [collapseGo, hc, hd]
          rcases ih with hid | ⟨pre, w1, w2, t', hdec, hw1, hw2, hcol⟩
          · exact Or.inl (by rw [hout, hid])
          · exact Or.inr ⟨c :: pre, w1, w2, t', by rw [List.cons_append, ← hdec],
              hw1, hw2, by rw [hout, hcol]; rfl⟩

theorem trailOk_append_ws {r W : List Char} (htr : trailOk r = true)
    (hW : ∀ c ∈ W, isPySpace c = true) : trailOk (r ++ W) = true := by
  cases r with
  | nil =>
    cases W with
    | nil => rfl
    | cons w W' =>
      simp [trailOk, ws_not_word (hW w (List.mem_cons_self w W'))]
  | cons e r' => simpa [trailOk] using htr

/-- A position with no match keeps having no match after the rest of the
input is whitespace-collapsed. -/
theorem matchAt_stable_collapse {p : Option Char} {c : Char} {rest : List Char}
    (h : matchAt p (c :: rest) = none) :
    matchAt p (c :: collapseGo false rest) = none := by
  rcases collapseGo_decomp rest with hid | ⟨pre, w1, w2, t, hdec, hw1, hw2, hcol⟩
  · rw [hid]; exact h
  · rw [hcol]
    rcases hcon : matchAt p (c :: (pre ++ (' ' :: collapseGo true (w2 :: t))))
        with _ | ⟨m, r⟩
    · rfl
    · exfalso
      set Z := collapseGo true (w2 :: t) with hZ
      obtain ⟨hbp, hsh, hs, htr⟩ := matchAt_some_iff.mp hcon
      have hs' : m ++ r = (c :: pre) ++ (' ' :: Z) := by rw [← hs]; rfl
      rcases List.append_eq_append_iff.mp hs' with ⟨A', h1, h2⟩ | ⟨C', h1, h2⟩
      · have htr' : trailOk (A' ++ (w1 :: w2 :: t)) = true := by
          cases A' with
          | nil => simp [trailOk, ws_not_word hw1]
          | cons a A'' =>
            have : trailOk ((a :: A'') ++ (' ' :: Z)) = true := by rw [← h2]; exact htr
            simpa [trailOk] using this
        have hcontra : matchAt p (c :: rest) = some (m, A' ++ (w1 :: w2 :: t)) := by
          refine matchAt_some_iff.mpr ⟨hbp, hsh, ?_, htr'⟩
          rw [hdec]
          calc c :: (pre ++ (w1 :: w2 :: t))
              = (c :: pre) ++ (w1 :: w2 :: t) := rfl
            _ = (m ++ A') ++ (w1 :: w2 :: t) := by rw [h1]
            _ = m ++ (A' ++ (w1 :: w2 :: t)) := by simp
        rw [hcontra] at h
        exact absurd h (by simp)
      · cases C' with
        | nil =>
          have hm : m = c :: pre := by simpa using h1
          have hr : r = ' ' :: Z := by simpa using h2.symm
          have hcontra : matchAt p (c :: rest) = some (m, w1 :: w2 :: t) := by
            refine matchAt_some_iff.mpr ⟨hbp, hsh, ?_, by simp [trailOk, ws_not_word hw1]⟩
            rw [hdec, hm]
            rfl
          rw [hcontra] at h
          exact absurd h (by simp)
        | cons e C'' =>
          have he : e = ' ' := by
            have h3 : (' ' :: Z : List Char) = e :: (C'' ++ r) := by simpa using h2
            obtain ⟨h4, -⟩ : e = ' ' ∧ C'' ++ r = Z := by simpa using h3.symm
            exact h4
          have hmem : e ∈ m := by rw [h1]; simp
          have := tokShape_no_space hsh e hmem
          rw [he] at this
          exact absurd this (by decide)

theorem noMatch_run_elim {run : List Char} : ∀ (suf : List Char) (p : Option Char),
    (∀ c ∈ run, isPySpace c = true) → run ≠ [] →
    noMatch p (run ++ suf) = true →
    ∀ p', boundaryOk p' = true → noMatch p' suf = true := by
  induction run with
  | nil => intro _ _ _ habs; exact absurd rfl habs
  | cons a run' ih =>
    intro suf p hws _ h p' hp'
    have ha : isPySpace a = true := hws a (List.mem_cons_self a run')
    have h2 : noMatch (some a) (run' ++ suf) = true :=
      (noMatch_cons_iff.mp h).2
    cases run' with
    | nil =>
      exact noMatch_mono h2 (by simp [boundaryOk, ws_not_word ha]) p'
    | cons b run'' =>
      exact ih suf (some a) (fun c hc => hws c (List.mem_cons_of_mem a hc))
        (by simp) h2 p' hp'

/-- Collapsing preserves match-freeness. -/
theorem noMatch_collapse : ∀ (n : Nat) (p : Option Char) (s : List Char),
    s.length ≤ n → noMatch p s = true → noMatch p (collapseGo false s) = true := by
  intro n
  induction n with
  | zero =>
    intro p s hlen _
    have : s = [] := List.eq_nil_of_length_eq_zero (Nat.le_zero.mp hlen)
    rw [this]; rfl
  | succ n ih =>
    intro p s hlen h
    cases s with
    | nil => rfl
    | cons c rest =>
      obtain ⟨h1, h2⟩ := noMatch_cons_iff.mp h
      have hrn : rest.length ≤ n := by
        simp only [List.length_cons] at hlen; omega
      cases hc : isPySpace c with
      | false =>
        have hout : collapseGo false (c :: rest) = c :: collapseGo false rest := by
          cases rest <;> simp [collapseGo, hc]
        rw [hout]
        exact noMatch_cons_iff.mpr ⟨matchAt_stable_collapse h1, ih (some c) rest hrn h2⟩
      | true =>
        cases rest with
        | nil =>
          have hout : collapseGo false [c] = [c] := by simp [collapseGo, hc]
          rw [hout]; exact h
        | cons d t =>
          cases hd : isPySpace d with
          | false =>
            have hout : collapseGo false (c :: d :: t) = c :: collapseGo false (d :: t) := by
              simp [collapseGo, hc, hd]
            rw [hout]
            exact noMatch_cons_iff.mpr
              ⟨matchAt_stable_collapse h1, ih (some c) (d :: t) hrn h2⟩
          | true =>
            have hout : collapseGo false (c :: d :: t) = ' ' :: collapseGo true (d :: t) := by
              simp [collapseGo, hc, hd]
            rw [hout, collapseGo_true_run]
            set suf := (d :: t).dropWhile isPySpace with hsuf
            have hdect : (d :: t) = (d :: t).takeWhile isPySpace ++ suf :=
              (List.takeWhile_append_dropWhile isPySpace (d :: t)).symm
            have hrun_ne : (d :: t).takeWhile isPySpace ≠ [] := by
              simp [List.takeWhile_cons, hd]
            have hsufnm : noMatch (some ' ') suf = true := by
              refine noMatch_run_elim suf (some c)
                (fun x hx => List.mem_takeWhile_imp hx) hrun_ne ?_ (some ' ') (by decide)
              rw [← hdect]; exact h2
            have hsuflen : suf.length ≤ n := by
              have h1l : suf.length ≤ (d :: t).length :=
                List.Sublist.length_le (List.dropWhile_sublist isPySpace)
              omega
            refine noMatch_cons_iff.mpr ⟨matchAt_none_of_head (by decide), ?_⟩
            exact ih (some ' ') suf hsuflen hsufnm

theorem noTwoWs_cons_of {a : Char} {l : List Char} (hl : noTwoWs l = true)
    (ha : ∀ b, l.head? = some b → (isPySpace a && isPySpace b) = false) :
    noTwoWs (a :: l) = true := by
  cases l with
  | nil => rfl
  | cons b t => simp [noTwoWs, ha b rfl, hl]

theorem noTwoWs_tail {a : Char} {l : List Char} (h : noTwoWs (a :: l) = true) :
    noTwoWs l = true := by
  cases l with
  | nil => rfl
  | cons b t =>
    have : (!(isPySpace a && isPySpace b) && noTwoWs (b :: t)) = true := by
      simpa [noTwoWs] using h
    exact (Bool.and_eq_true_iff.mp this).2

theorem collapseGo_false_head {c : Char} (rest : List Char) (hc : isPySpace c = false) :
    collapseGo false (c :: rest) = c :: collapseGo false rest := by
  cases rest <;> simp [collapseGo, hc]

/-- The collapse output never contains two adjacent whitespace characters. -/
theorem noTwoWs_collapse : ∀ (n : Nat) (s : List Char), s.length ≤ n →
    noTwoWs (collapseGo false s) = true := by
  intro n
  induction n with
  | zero =>
    intro s hlen
    have : s = [] := List.eq_nil_of_length_eq_zero (Nat.le_zero.mp hlen)
    rw [this]; rfl
  | succ n ih =>
    intro s hlen
    cases s with
    | nil => rfl
    | cons c rest =>
      have hrn : rest.length ≤ n := by
        simp only [List.length_cons] at hlen; omega
      cases hc : isPySpace c with
      | false =>
        rw [collapseGo_false_head rest hc]
        refine noTwoWs_cons_of (ih rest hrn) ?_
        intro b _
        simp [hc]
      | true =>
        cases rest with
        | nil => simp [collapseGo, hc, noTwoWs]
        | cons d t =>
          cases hd : isPySpace d with
          | false =>
            have hout : collapseGo false (c :: d :: t) = c :: collapseGo false (d :: t) := by
              simp [collapseGo, hc, hd]
            rw [hout]
            refine noTwoWs_cons_of (ih (d :: t) hrn) ?_
            intro b hb
            rw [collapseGo_false_head t hd] at hb
            have hdb : d = b := by simpa using hb
            rw [← hdb, hd]
            simp
          | true =>
            have hout : collapseGo false (c :: d :: t) = ' ' :: collapseGo true (d :: t) := by
              simp [collapseGo, hc, hd]
            rw [hout, collapseGo_true_run]
            set suf := (d :: t).dropWhile isPySpace with hsuf
            have hsuflen : suf.length ≤ n := by
              have h1l : suf.length ≤ (d :: t).length :=
                List.Sublist.length_le (List.dropWhile_sublist isPySpace)
              omega
            refine noTwoWs_cons_of (ih suf hsuflen) ?_
            intro b hb
            rcases dropWhile_head_false isPySpace (d :: t) with hnil | ⟨e, t', he, hew⟩
            · rw [← hsuf] at hnil
              rw [hnil] at hb
              simp [collapseGo] at hb
            · rw [← hsuf] at he
              rw [he, collapseGo_false_head t' hew] at hb
              have heb : e = b := by simpa using hb
              rw [← heb, hew]
              simp

/-- On input without adjacent whitespace the collapse scanner is the identity. -/
theorem collapseGo_of_noTwoWs : ∀ (s : List Char), noTwoWs s = true →
    collapseGo false s = s := by
  intro s
  induction s with
  | nil => intro _; rfl
  | cons c rest ih =>
    intro h
    cases rest with
    | nil => cases hc : isPySpace c <;> simp [collapseGo, hc]
    | cons d t =>
      have hfull : (!(isPySpace c && isPySpace d) && noTwoWs (d :: t)) = true := by
        simpa [noTwoWs] using h
      have hdisj : isPySpace c = false ∨ isPySpace d = false := by
        have h0 := (Bool.and_eq_true_iff.mp hfull).1
        simpa using h0
      have htl := ih (noTwoWs_tail h)
      cases hc : isPySpace c with
      | false => rw [collapseGo_false_head (d :: t) hc, htl]
      | true =>
        have hd : isPySpace d = false := by
          rcases hdisj with h' | h'
          · rw [hc] at h'; exact absurd h' (by simp)
          · exact h'
        have hout : collapseGo false (c :: d :: t) = c :: collapseGo false (d :: t) := by
          simp [collapseGo, hc, hd]
        rw [hout, htl]

/-! ### Strip -/

/-- Drop trailing whitespace. -/
def dropTrailWs (l : List Char) : List Char :=
  (l.reverse.dropWhile isPySpace).reverse

theorem stripL_eq (s : List Char) :
    stripL s = dropTrailWs (s.dropWhile isPySpace) := rfl

theorem dropTrailWs_decomp (l : List Char) :
    ∃ W, l = dropTrailWs l ++ W ∧ ∀ c ∈ W, isPySpace c = true := by
  refine ⟨(l.reverse.takeWhile isPySpace).reverse, ?_, ?_⟩
  · conv_lhs => rw [← List.reverse_reverse l,
      ← List.takeWhile_append_dropWhile isPySpace l.reverse]
    rw [List.reverse_append]
    rfl
  · intro c hc
    rw [List.mem_reverse] at hc
    exact List.mem_takeWhile_imp hc

theorem noMatch_append_ws : ∀ (Y : List Char) {W : List Char} (p : Option Char),
    (∀ c ∈ W, isPySpace c = true) → noMatch p (Y ++ W) = true →
    noMatch p Y = true := by
  intro Y
  induction Y with
  | nil => intro W p _ _; rfl
  | cons c Y' ih =>
    intro W p hW h
    rw [List.cons_append] at h
    obtain ⟨h1, h2⟩ := noMatch_cons_iff.mp h
    refine noMatch_cons_iff.mpr ⟨?_, ih (some c) hW h2⟩
    rcases hm : matchAt p (c :: Y') with _ | ⟨m, r⟩
    · rfl
    · exfalso
      obtain ⟨hbp, hsh, hs, htr⟩ := matchAt_some_iff.mp hm
      have hcontra : matchAt p (c :: (Y' ++ W)) = some (m, r ++ W) := by
        refine matchAt_some_iff.mpr ⟨hbp, hsh, ?_, trailOk_append_ws htr hW⟩
        rw [← List.cons_append, hs]; simp
      rw [hcontra] at h1
      exact absurd h1 (by simp)

theorem noTwoWs_append_left : ∀ (Y W : List Char),
    noTwoWs (Y ++ W) = true → noTwoWs Y = true := by
  intro Y
  induction Y with
  | nil => intro W _; rfl
  | cons c Y' ih =>
    intro W h
    cases Y' with
    | nil => rfl
    | cons d Y'' =>
      have hfull : (!(isPySpace c && isPySpace d) && noTwoWs ((d :: Y'') ++ W)) = true := by
        simpa [noTwoWs] using h
      obtain ⟨hp, ht⟩ := Bool.and_eq_true_iff.mp hfull
      have := ih W ht
      simp [noTwoWs, this]
      simpa using hp

theorem noTwoWs_dropWhile (q : Char → Bool) : ∀ (l : List Char),
    noTwoWs l = true → noTwoWs (l.dropWhile q) = true := by
  intro l
  induction l with
  | nil => intro _; rfl
  | cons c rest ih =>
    intro h
    cases hc : q c with
    | false => rw [List.dropWhile_cons]; simpa [hc] using h
    | true =>
      rw [List.dropWhile_cons]
      simpa [hc] using ih (noTwoWs_tail h)

theorem noMatch_dropWhileWs : ∀ (l : List Char) (p : Option Char),
    noMatch p l = true → noMatch p (l.dropWhile isPySpace) = true := by
  intro l
  induction l with
  | nil => intro p _; rfl
  | cons c rest ih =>
    intro p h
    obtain ⟨h1, h2⟩ := noMatch_cons_iff.mp h
    cases hc : isPySpace c with
    | false => rw [List.dropWhile_cons]; simpa [hc] using h
    | true =>
      rw [List.dropWhile_cons]
      simp only [hc, if_true]
      exact noMatch_mono (ih (some c) h2) (by simp [boundaryOk, ws_not_word hc]) p

theorem dropWhile_idem (q : Char → Bool) (l : List Char) :
    (l.dropWhile q).dropWhile q = l.dropWhile q := by
  rcases dropWhile_head_false q l with hnil | ⟨e, t, he, hew⟩
  · rw [hnil]; rfl
  · rw [he]; simp [List.dropWhile_cons, hew]

theorem dropTrailWs_idem (l : List Char) : dropTrailWs (dropTrailWs l) = dropTrailWs l := by
  show ((dropTrailWs l).reverse.dropWhile isPySpace).reverse = dropTrailWs l
  rw [dropTrailWs, List.reverse_reverse, dropWhile_idem]

theorem stripL_idem (X : List Char) : stripL (stripL X) = stripL X := by
  rw [stripL_eq X]
  set Y := X.dropWhile isPySpace with hY
  have hdw : (dropTrailWs Y).dropWhile isPySpace = dropTrailWs Y := by
    obtain ⟨W, hdec, hW⟩ := dropTrailWs_decomp Y
    cases hT : dropTrailWs Y with
    | nil => rfl
    | cons e T' =>
      have hhead : Y = e :: (T' ++ W) := by
        rw [hdec, hT]; rfl
      have hew : isPySpace e = false := by
        rcases dropWhile_head_false isPySpace X with hnil | ⟨e0, t0, he0, he0w⟩
        · rw [← hY] at hnil; rw [hnil] at hhead; exact absurd hhead (by simp)
        · rw [← hY] at he0
          rw [he0] at hhead
          obtain ⟨h5, -⟩ : e0 = e ∧ t0 = T' ++ W := by simpa using hhead
          rw [← h5]; exact he0w
      simp [List.dropWhile_cons, hew]
  rw [stripL_eq, hdw, dropTrailWs_idem]

/-! ### Idempotence of the cleanup -/

theorem cleanHud_idempotent (s : List Char) : cleanHud (cleanHud s) = cleanHud s := by
  have h1 : noMatch none (removeHud none s) = true :=
    noMatch_removeHud s.length none s le_rfl
  have h2 : noMatch none (collapseWs (removeHud none s)) = true :=
    noMatch_collapse (removeHud none s).length none _ le_rfl h1
  have h2' : noMatch none ((collapseWs (removeHud none s)).dropWhile isPySpace) = true :=
    noMatch_dropWhileWs _ none h2
  obtain ⟨W, hdec, hW⟩ :=
    dropTrailWs_decomp ((collapseWs (removeHud none s)).dropWhile isPySpace)
  have h3 : noMatch none (cleanHud s) = true := by
    show noMatch none (stripL (collapseWs (removeHud none s))) = true
    rw [stripL_eq]
    refine noMatch_append_ws _ none hW ?_
    rw [← hdec]
    exact h2'
  have h4 : removeHud none (cleanHud s) = cleanHud s :=
    removeHud_of_noMatch _ none h3
  have h5 : noTwoWs (collapseWs (removeHud none s)) = true :=
    noTwoWs_collapse (removeHud none s).length _ le_rfl
  have h5' : noTwoWs ((collapseWs (removeHud none s)).dropWhile isPySpace) = true :=
    noTwoWs_dropWhile isPySpace _ h5
  have h6 : noTwoWs (cleanHud s) = true := by
    show noTwoWs (stripL (collapseWs (removeHud none s))) = true
    rw [stripL_eq]
    refine noTwoWs_append_left _ W ?_
    rw [← hdec]
    exact h5'
  have h7 : collapseWs (cleanHud s) = cleanHud s := collapseGo_of_noTwoWs _ h6
  have h8 : stripL (cleanHud s) = cleanHud s := stripL_idem (collapseWs (removeHud none s))
  calc cleanHud (cleanHud s)
      = stripL (collapseWs (removeHud none (cleanHud s))) := rfl
    _ = stripL (collapseWs (cleanHud s)) := by rw [h4]
    _ = stripL (cleanHud s) := by rw [h7]
    _ = cleanHud s := h8


/-! ## Claim theorems -/

/-- C4: the overlay-cleanup function (remove frame-rate/resolution tokens,
collapse whitespace runs, trim) is idempotent: for every text `t`,
`clean (clean t) = clean t`. -/
theorem c4_cleanup_idempotent (t : String) :
    cleanHudStr (cleanHudStr t) = cleanHudStr t :=
  congrArg String.mk (cleanHud_idempotent t.data)

/-- C5: with cleanup enabled, overlay tokens are removed, whitespace runs of
two or more characters are collapsed to a single space, and the result is
trimmed; in particular `"Hello 60FPS world 1920x1080 end"` cleans to
`"Hello world end"`. -/
theorem c5_cleanup_example :
    cleanHudStr "Hello 60FPS world 1920x1080 end" = "Hello world end" ∧
    (∀ s : String, cleanHudStr s = ⟨stripL (collapseWs (removeHud none s.data))⟩) :=
  ⟨by decide, fun _ => rfl⟩

/-- C2: the `auto` OCR policy attempts livetext first; exactly when that
attempt raised or returned empty text, the vision backend is attempted on the
same image (its result, empty or not, is final); a non-empty livetext result
is returned without consulting vision. -/
theorem c2_auto_fallback (lt v : Except Unit String) :
    (∀ s, lt = Except.ok s → s ≠ "" →
      run_ocr_pipeline "auto" lt v = Except.ok s) ∧
    (lt = Except.ok "" → run_ocr_pipeline "auto" lt v = v) ∧
    (∀ e, lt = Except.error e → run_ocr_pipeline "auto" lt v = v) := by
  refine ⟨?_, ?_, ?_⟩
  · rintro s rfl hs
    simp [run_ocr_pipeline, hs]
  · rintro rfl
    simp [run_ocr_pipeline]
  · rintro e rfl
    simp [run_ocr_pipeline]

/-- Witness for C2 at concrete inputs. -/
theorem c2_auto_fallback_witness :
    run_ocr_pipeline "auto" (Except.ok "hi") (Except.ok "") = Except.ok "hi" ∧
    run_ocr_pipeline "auto" (Except.ok "") (Except.ok "v") = Except.ok "v" ∧
    run_ocr_pipeline "auto" (Except.error ()) (Except.ok "v") = Except.ok "v" :=
  ⟨(c2_auto_fallback (Except.ok "hi") (Except.ok "")).1 "hi" rfl (by decide),
   (c2_auto_fallback (Except.ok "") (Except.ok "v")).2.1 rfl,
   (c2_auto_fallback (Except.error ()) (Except.ok "v")).2.2 () rfl⟩

/-- C10: in the window-capture utility's pipeline a livetext exception is
swallowed into an empty result, so an explicit `livetext` run with a failing
backend finishes with the non-error exit code 7; a vision exception is never
caught and propagates (both under explicit `vision` and under `auto` after an
empty livetext result). -/
theorem c10_livetext_swallow (v lt : Except Unit String) (e : Unit) :
    run_ocr_pipeline "livetext" (Except.error e) v = Except.ok "" ∧
    window_main_finish (run_ocr_pipeline "livetext" (Except.error e) v) =
      Except.ok 7 ∧
    run_ocr_pipeline "vision" lt (Except.error e) = Except.error e ∧
    run_ocr_pipeline "auto" (Except.ok "") (Except.error e) = Except.error e := by
  cases e
  refine ⟨?_, ?_, ?_, ?_⟩ <;>
    simp [run_ocr_pipeline, window_main_finish, pyStrip, stripL]

/-- C1 counterexample: a trigger whose OCR stage raises is a failing run, yet
`run_once` does not catch it — the exception escapes and the daemon loop (which
catches only `KeyboardInterrupt`) terminates instead of returning to Idle. -/
theorem c1_counterexample :
    runFails { window := some 1, capture := Except.ok (), ocr := Except.error (),
               clipboard := Except.ok (), afterCmd := none } = true ∧
    run_once { window := some 1, capture := Except.ok (), ocr := Except.error (),
               clipboard := Except.ok (), afterCmd := none } =
      RunOutcome.propagated ∧
    daemonIdleAfter { window := some 1, capture := Except.ok (),
                      ocr := Except.error (), clipboard := Except.ok (),
                      afterCmd := none } = false := by
  decide

/-- C1 (amended): the daemon returns to Idle exactly when the window lookup
found nothing, the capture raised `CalledProcessError`, or OCR returned
(possibly blank) text and the clipboard write and after-command launch did not
raise; an OCR exception, clipboard failure, or after-command launch failure
escapes `run_once` and terminates the daemon. -/
theorem c1_daemon_failure_handling (env : DaemonEnv) :
    daemonIdleAfter env = true ↔
      env.window = none ∨ env.capture = Except.error () ∨
      ∃ t, env.ocr = Except.ok t ∧
        (pyStrip t = "" ∨
          (env.clipboard = Except.ok () ∧ env.afterCmd ≠ some (Except.error ()))) := by
  obtain ⟨w, cap, ocr, clip, aft⟩ := env
  cases w <;> rcases cap with ⟨⟨⟩⟩ | ⟨⟨⟩⟩ <;> rcases ocr with ⟨⟨⟩⟩ | ⟨t⟩ <;>
    rcases clip with ⟨⟨⟩⟩ | ⟨⟨⟩⟩ <;> rcases aft with _ | (⟨⟨⟩⟩ | ⟨⟨⟩⟩) <;>
    simp [daemonIdleAfter, run_once] <;>
    by_cases ht : pyStrip t = "" <;> simp [ht]

/-- C3 counterexample: the window-capture utility passes the configured
language list to the vision backend unfiltered (here the unsupported default
`ja-JP`), and the core module keeps a hint list even when the primary tag is
unsupported (filtering rather than omitting). -/
theorem c3_counterexample :
    ¬("ja-JP" ∈ VISION_SUPPORTED_LANGS) ∧
    windowOcrCall "vision" "accurate" ["ja-JP"] =
      OCRCall.vision "accurate" (some ["ja-JP"]) ∧
    coreOcrCall { framework := "vision", level := "accurate",
                  languages := ["ja-JP", "en-US"] } =
      OCRCall.vision "accurate" (some ["en-US"]) := by
  refine ⟨by decide, by decide, ?_⟩
  rfl

/-- C3 (amended): in the core OCR module the vision hint list is the
configured list filtered to the supported set — so it only contains supported
tags — and it is omitted exactly when that filtered list is empty (not merely
when the primary tag is unsupported); the window-capture utility passes the
configured list to vision unfiltered. -/
theorem c3_vision_language_hints (cfg : OCRConfig) (langs : List String)
    (level : String) :
    (cfg.framework ≠ "livetext" →
      coreOcrCall cfg = OCRCall.vision cfg.level
        (if cfg.languages.filter (fun l => VISION_SUPPORTED_LANGS.contains l) = []
         then none
         else some (cfg.languages.filter (fun l => VISION_SUPPORTED_LANGS.contains l)))) ∧
    (∀ t ∈ cfg.languages.filter (fun l => VISION_SUPPORTED_LANGS.contains l),
      t ∈ VISION_SUPPORTED_LANGS) ∧
    windowOcrCall "vision" level langs = OCRCall.vision level (some langs) := by
  refine ⟨?_, ?_, by simp [windowOcrCall]⟩
  · intro hfw
    by_cases hf : cfg.languages.filter (fun l => VISION_SUPPORTED_LANGS.contains l) = [] <;>
      simp [coreOcrCall, hfw, hf, List.isEmpty_iff] <;> split_ifs <;> rfl
  · intro t ht
    have := (List.mem_filter.mp ht).2
    simpa using this

/-- Witness for C3 at a concrete configuration. -/
theorem c3_vision_language_hints_witness :
    coreOcrCall { framework := "vision", level := "fast", languages := ["ja-JP"] } =
      OCRCall.vision "fast" none :=
  ((c3_vision_language_hints
      { framework := "vision", level := "fast", languages := ["ja-JP"] }
      [] "fast").1 (by decide)).trans (by rfl)

/-- C6: crop-rectangle parsing succeeds only with parsed values satisfying
`0 ≤ x0 < x1 ≤ 1` and `0 ≤ y0 < y1 ≤ 1`; it rejects `"0.5,0.1,0.3,0.9"`
(`x0 ≥ x1`) and `"0,0,1,1.5"` (`y1 > 1`), and accepts
`"0.05,0.62,0.95,0.95"`. -/
theorem c6_parse_crop :
    (∀ (s : String) (a b c d : ℚ), parse_crop s = Except.ok (a, b, c, d) →
      0 ≤ a ∧ a < c ∧ c ≤ 1 ∧ 0 ≤ b ∧ b < d ∧ d ≤ 1) ∧
    parse_crop "0.5,0.1,0.3,0.9" =
      Except.error "crop must satisfy 0<=x0<x1<=1 and 0<=y0<y1<=1" ∧
    parse_crop "0,0,1,1.5" =
      Except.error "crop must satisfy 0<=x0<x1<=1 and 0<=y0<y1<=1" ∧
    parse_crop "0.05,0.62,0.95,0.95" =
      Except.ok (1 / 20, 31 / 50, 19 / 20, 19 / 20) := by
  refine ⟨?_, ?_, ?_, ?_⟩
  · intro s a b c d h
    unfold parse_crop at h
    repeat' split at h
    all_goals simp at h
    obtain ⟨rfl, rfl, rfl, rfl⟩ := h
    assumption
  · have hparts : (splitComma ("0.5,0.1,0.3,0.9" : String).data).map stripL =
        [['0', '.', '5'], ['0', '.', '1'], ['0', '.', '3'], ['0', '.', '9']] := by decide
    have h5 : parseFloatQ ['0', '.', '5'] =
        some (((0 : ℕ) : ℚ) + ((5 : ℕ) : ℚ) / (10 : ℚ) ^ 1) := rfl
    have h1 : parseFloatQ ['0', '.', '1'] =
        some (((0 : ℕ) : ℚ) + ((1 : ℕ) : ℚ) / (10 : ℚ) ^ 1) := rfl
    have h3 : parseFloatQ ['0', '.', '3'] =
        some (((0 : ℕ) : ℚ) + ((3 : ℕ) : ℚ) / (10 : ℚ) ^ 1) := rfl
    have h9 : parseFloatQ ['0', '.', '9'] =
        some (((0 : ℕ) : ℚ) + ((9 : ℕ) : ℚ) / (10 : ℚ) ^ 1) := rfl
    unfold parse_crop
    rw [hparts]
    norm_num [h5, h1, h3, h9]
  · have hparts : (splitComma ("0,0,1,1.5" : String).data).map stripL =
        [['0'], ['0'], ['1'], ['1', '.', '5']] := by decide
    have h0 : parseFloatQ ['0'] = some ((0 : ℕ) : ℚ) := rfl
    have h1 : parseFloatQ ['1'] = some ((1 : ℕ) : ℚ) := rfl
    have h15 : parseFloatQ ['1', '.', '5'] =
        some (((1 : ℕ) : ℚ) + ((5 : ℕ) : ℚ) / (10 : ℚ) ^ 1) := rfl
    unfold parse_crop
    rw [hparts]
    norm_num [h0, h1, h15]
  · have hparts : (splitComma ("0.05,0.62,0.95,0.95" : String).data).map stripL =
        [['0', '.', '0', '5'], ['0', '.', '6', '2'], ['0', '.', '9', '5'],
         ['0', '.', '9', '5']] := by decide
    have h05 : parseFloatQ ['0', '.', '0', '5'] =
        some (((0 : ℕ) : ℚ) + ((5 : ℕ) : ℚ) / (10 : ℚ) ^ 2) := rfl
    have h62 : parseFloatQ ['0', '.', '6', '2'] =
        some (((0 : ℕ) : ℚ) + ((62 : ℕ) : ℚ) / (10 : ℚ) ^ 2) := rfl
    have h95 : parseFloatQ ['0', '.', '9', '5'] =
        some (((0 : ℕ) : ℚ) + ((95 : ℕ) : ℚ) / (10 : ℚ) ^ 2) := rfl
    unfold parse_crop
    rw [hparts]
    norm_num [h05, h62, h95]

/-- Witness for C6 via the parser's accepted example input. -/
theorem c6_parse_crop_witness :
    0 ≤ (1 / 20 : ℚ) ∧ (1 / 20 : ℚ) < 19 / 20 ∧ (19 / 20 : ℚ) ≤ 1 ∧
    0 ≤ (31 / 50 : ℚ) ∧ (31 / 50 : ℚ) < 19 / 20 ∧ (19 / 20 : ℚ) ≤ 1 :=
  c6_parse_crop.1 "0.05,0.62,0.95,0.95" (1 / 20) (31 / 50) (19 / 20) (19 / 20)
    c6_parse_crop.2.2.2

/-- C7: in the single-shot image utility, an existing image whose recognized
text strips to empty exits with code 3 and nothing is written to the
clipboard; a clipboard write happens only on the exit-code-0 path. -/
theorem c7_no_text_exit3 (env : CoreMainEnv) :
    (env.imageExists = true → pyStrip env.ocrText = "" →
      ocr_core_main env = ⟨3, none⟩) ∧
    (∀ t, (ocr_core_main env).clipboard = some t →
      (ocr_core_main env).exitCode = 0) := by
  obtain ⟨ex, txt⟩ := env
  constructor
  · intro h1 h2
    have h1' : ex = true := h1
    have h2' : pyStrip txt = "" := h2
    simp [ocr_core_main, h1', h2']
  · intro t h
    cases ex with
    | false => simp [ocr_core_main] at h
    | true =>
      by_cases ht : pyStrip txt = ""
      · simp [ocr_core_main, ht] at h
      · simp [ocr_core_main, ht] at h ⊢

/-- Witness for C7 at a concrete all-whitespace OCR result. -/
theorem c7_no_text_exit3_witness :
    ocr_core_main { imageExists := true, ocrText := " \n " } =
      { exitCode := 3, clipboard := none } :=
  (c7_no_text_exit3 { imageExists := true, ocrText := " \n " }).1 rfl (by decide)

/-- C9: cropping by a rectangle and then by the identity rectangle (0,0,1,1)
yields the same image as cropping by the rectangle alone: the identity crop
is a pass-through (crop-box edges are the normalized coordinates scaled by
the pixel dimensions, truncated toward zero). -/
theorem c9_identity_crop (img : Img) (r : ℚ × ℚ × ℚ × ℚ) :
    load_and_crop (load_and_crop img (some r)) (some (0, 0, 1, 1)) =
      load_and_crop img (some r) := by
  obtain ⟨x0, y0, x1, y1⟩ := r
  have key : ∀ X : Img, load_and_crop X (some (0, 0, 1, 1)) = X := by
    intro X
    cases X with
    | mk w h pix =>
      show Img.mk (truncQ (1 * (w : ℚ)) - truncQ (0 * (w : ℚ)))
          (truncQ (1 * (h : ℚ)) - truncQ (0 * (h : ℚ)))
          (fun i j => pix (truncQ (0 * (w : ℚ)) + i) (truncQ (0 * (h : ℚ)) + j)) =
        Img.mk w h pix
      have hz : ∀ n : Nat, truncQ (0 * (n : ℚ)) = 0 := by
        intro n; simp [truncQ]
      have ho : ∀ n : Nat, truncQ (1 * (n : ℚ)) = n := by
        intro n; simp [truncQ]
      rw [hz, hz, ho, ho]
      congr 1
      funext i j
      simp
  exact key _

theorem listContains_nil (hay : List Char) : listContains hay [] = true := by
  cases hay with
  | nil => rfl
  | cons h hs => simp [listContains, listStarts]

theorem skipTitle_false_titleOk {titleSub : Option String} {w : WinInfo}
    (h : skipTitleB titleSub w = false) : titleOkB titleSub w = true := by
  cases titleSub with
  | none => rfl
  | some t =>
    by_cases ht : t = ""
    · subst ht
      show containsS (lowerS (orEmpty w.title)) (lowerS "") = true
      exact listContains_nil _
    · simp [skipTitleB, ht] at h
      simpa [titleOkB] using h

theorem skipTitle_true_titleOk {titleSub : Option String} {w : WinInfo}
    (h : skipTitleB titleSub w = true) : titleOkB titleSub w = false := by
  cases titleSub with
  | none => simp [skipTitleB] at h
  | some t =>
    simp [skipTitleB] at h
    simpa [titleOkB] using h.2

/-- C8: on window lists whose entries carry a window number, the daemon's
locator returns the number of the first window (in enumeration order) whose
owner contains the app substring case-insensitively, whose title contains the
title substring when one was given, and whose layer is 0; it returns `none`
(not an error) when no window qualifies. -/
theorem c8_window_locator (app : String) (titleSub : Option String)
    (ws : List WinInfo) (h : ∀ w ∈ ws, w.wid.isSome = true) :
    pick_window_id app titleSub ws =
      (ws.find? (claimMatch app titleSub)).bind WinInfo.wid := by
  induction ws with
  | nil => rfl
  | cons w rest ih =>
    have hw : w.wid.isSome = true := h w (List.mem_cons_self w rest)
    obtain ⟨i, hwid⟩ := Option.isSome_iff_exists.mp hw
    have hrest := ih (fun x hx => h x (List.mem_cons_of_mem w hx))
    by_cases hown : containsS (lowerS (orEmpty w.owner)) (lowerS app) = true
    · cases hskip : skipTitleB titleSub w with
      | true =>
        have hcm : claimMatch app titleSub w = false := by
          simp [claimMatch, skipTitle_true_titleOk hskip]
        rw [List.find?_cons_of_neg _ (by simp [hcm])]
        rw [← hrest]
        simp [pick_window_id, hown, hskip]
      | false =>
        have htitle := skipTitle_false_titleOk hskip
        cases hlayer : (w.layer.getD 0 == 0) with
        | true =>
          have hcm : claimMatch app titleSub w = true := by
            simp only [claimMatch, hown, htitle, hlayer]
            rfl
          rw [List.find?_cons_of_pos _ (by simp [hcm])]
          simp [pick_window_id, hown, hskip, hwid, hlayer]
        | false =>
          have hcm : claimMatch app titleSub w = false := by
            simp [claimMatch, hlayer]
          rw [List.find?_cons_of_neg _ (by simp [hcm])]
          rw [← hrest]
          simp [pick_window_id, hown, hskip, hwid, hlayer]
    · have hcm : claimMatch app titleSub w = false := by
        simp only [claimMatch]
        simp [hown]
      rw [List.find?_cons_of_neg _ (by simp [hcm])]
      rw [← hrest]
      simp [pick_window_id, hown]

/-- Witness for C8 on a concrete window list. -/
theorem c8_window_locator_witness :
    pick_window_id "duck" (some "game")
      [{ owner := some "Finder", title := none, wid := some 7, layer := some 3 },
       { owner := some "DuckStation", title := some "Game - PS1", wid := some 42,
         layer := some 0 }] = some 42 := by
  rw [c8_window_locator "duck" (some "game") _ (by decide)]
  decide
